import Mathlib

/-!
Verification of the science_arhive PDF ingestion/search repository.

The development shallowly embeds the core of the repository:

* `filling_db.py` — `clean_text_encoding`, `extract_pdf_text_from_zip`,
  `write_to_file`, `process_zip_archives_to_sqlite`;
* `src/db_manager.py` — `PDFArchiveDatabaseManager` (`insert_pdf_contents_batch`,
  `insert_pdf_content`, `get_last_entry`, `pdf_exists`);
* `retry_failed_pdfs.py` — `parse_error_file`, `retry_failed_pdf`, the retry loop,
  `write_retry_errors`.

Modelling conventions:

* Python strings that may contain lone surrogate code points are modelled as
  `List Nat` (one entry per code point).  Strings flowing through the pipeline
  and the database are modelled as Lean `String` (valid Unicode scalars); the
  sanitizer restricted to that domain is the identity, proved as a lemma.
* SQLite state is a record of the `pdf_metadata` rows (kept in insertion order,
  ids assigned from an autoincrement counter) and the `pdf_search_index`
  rows `(rowid, content)`.  A plain `INSERT` into an FTS5 table with a rowid
  that is already present fails with `sqlite3.IntegrityError` (an
  `sqlite3.Error`); `INSERT OR REPLACE` replaces the row.  Both behaviours were
  checked against SQLite 3.40 and are reflected in the model.
* A fallible storage engine is modelled by an explicit `failAt` oracle: the
  oracle names the index of the low-level write at which the engine raises
  `sqlite3.Error`.  The source wraps every write sequence in
  `try ... except sqlite3.Error: rollback()`, which the model mirrors by
  returning the entry state when the oracle (or an FTS constraint) fires.
* JSON encoding/decoding of metadata dictionaries (`json.dumps`/`json.loads`)
  is modelled as the identity on the structured value; a metadata dictionary is
  an association list preserving insertion order, as Python dicts do.
-/

/-! ## Unicode sanitization (`clean_text_encoding`, filling_db.py lines 15-49)

`clean_text_encoding` first runs `text.encode('utf-8', errors='replace')
.decode('utf-8')`, which replaces each lone surrogate (the only code points a
Python `str` can hold that UTF-8 cannot encode) with `'?'` and leaves every
other code point unchanged; it then walks the result and replaces any code
point in U+D800..U+DFFF with `'?'`.  A Python string is a sequence of code
points below 0x110000, modelled as `List Nat`. -/

def isSurrogateCP (c : Nat) : Bool := 0xD800 ≤ c && c ≤ 0xDFFF

/-- The `encode('utf-8', errors='replace').decode('utf-8')` pass: each lone
surrogate becomes `'?'` (code point 0x3F), everything else is unchanged. -/
def encodeReplaceDecode (t : List Nat) : List Nat :=
  t.map (fun c => if isSurrogateCP c then 0x3F else c)

/-- The explicit character loop of `clean_text_encoding`: code points in
U+D800..U+DFFF are replaced by `'?'`. -/
def stripSurrogates (t : List Nat) : List Nat :=
  t.map (fun c => if isSurrogateCP c then 0x3F else c)

/-- `clean_text_encoding` (filling_db.py:15-49) on the code-point model. -/
def clean_text_encoding (t : List Nat) : List Nat :=
  stripSurrogates (encodeReplaceDecode t)

/-- `clean_text_encoding` restricted to strings of valid Unicode scalar values
(Lean `String`s); surrogates are unrepresentable here, so only the shape of the
per-character test survives. -/
def cleanChars (l : List Char) : List Char :=
  l.map (fun c => if isSurrogateCP c.toNat then '?' else c)

def cleanS (s : String) : String := ⟨cleanChars s.data⟩

theorem isSurrogateCP_char_false (c : Char) : isSurrogateCP c.toNat = false := by
  have h := c.valid
  rcases h with h | ⟨h1, _⟩
  · simp only [isSurrogateCP, Bool.and_eq_false_iff, decide_eq_false_iff_not, not_le]
    left
    have : c.toNat < 0xD800 := h
    omega
  · simp only [isSurrogateCP, Bool.and_eq_false_iff, decide_eq_false_iff_not, not_le]
    right
    have : 0xDFFF < c.toNat := h1
    omega

theorem cleanChars_id (l : List Char) : cleanChars l = l := by
  induction l with
  | nil => rfl
  | cons c cs ih =>
    simp [cleanChars, isSurrogateCP_char_false c] at ih ⊢
    exact ih

theorem cleanS_id (s : String) : cleanS s = s := by
  cases s with
  | mk data => simp [cleanS, cleanChars_id]

/-- One step of surrogate replacement. -/
def surrRepl (c : Nat) : Nat := if isSurrogateCP c then 0x3F else c

theorem stripSurrogates_eq_map (t : List Nat) : stripSurrogates t = t.map surrRepl := rfl

theorem isSurrogateCP_surrRepl (c : Nat) : isSurrogateCP (surrRepl c) = false := by
  unfold surrRepl
  by_cases h : isSurrogateCP c = true
  · rw [if_pos h]; decide
  · simp only [Bool.not_eq_true] at h
    rw [if_neg (by simp [h])]
    exact h

theorem surrRepl_idem (c : Nat) : surrRepl (surrRepl c) = surrRepl c := by
  by_cases h : isSurrogateCP c = true
  · unfold surrRepl
    rw [if_pos h]
    decide
  · simp only [Bool.not_eq_true] at h
    unfold surrRepl
    rw [if_neg (by simp [h]), if_neg (by simp [h])]

/-- **C9** (confirmed).  Sanitization: for every input string (sequence of code
points), the output of `clean_text_encoding` contains no lone surrogate code
point; each surrogate of the input is replaced by the placeholder `'?'`
(0x3F) while every other code point is kept; and sanitization is idempotent:
re-sanitizing an already-sanitized string returns it unchanged. -/
theorem C9_sanitization (t : List Nat) :
    (∀ c ∈ clean_text_encoding t, isSurrogateCP c = false) ∧
    clean_text_encoding t = t.map surrRepl ∧
    clean_text_encoding (clean_text_encoding t) = clean_text_encoding t := by
  have hmap : ∀ u : List Nat, clean_text_encoding u = (u.map surrRepl).map surrRepl := by
    intro u; rfl
  refine ⟨?_, ?_, ?_⟩
  · intro c hc
    rw [hmap, List.map_map] at hc
    rcases List.mem_map.mp hc with ⟨a, _, ha⟩
    rw [← ha]
    exact isSurrogateCP_surrRepl (surrRepl a)
  · rw [hmap, List.map_map]
    apply List.map_congr_left
    intro a _
    exact surrRepl_idem a
  · rw [hmap, hmap, List.map_map, List.map_map, List.map_map, List.map_map]
    apply List.map_congr_left
    intro a _
    simp only [Function.comp_apply, surrRepl_idem]

/-! ## Metadata Store + Search Index (`src/db_manager.py`)

`pdf_metadata` rows are `(id, zip_path, pdf_filename, metadata)`; `id` comes
from an `AUTOINCREMENT` counter starting at 1 and rows are only ever appended,
so the list is kept in increasing-id order.  `pdf_search_index` rows are
`(rowid, content)`.  Metadata dictionaries are association lists in insertion
order (Python dict semantics); `json.dumps`/`json.loads` round-trips are the
identity on this structured value. -/

inductive MVal where
  | s (v : String)
  | n (v : Nat)
  | b (v : Bool)
deriving DecidableEq, Repr

/-- A metadata dictionary: keys in insertion order. -/
abbrev Metadata := List (String × MVal)

/-- `d[k] = v` on a Python dict: overwrite in place if the key exists,
otherwise append. -/
def dictSet (m : Metadata) (k : String) (v : MVal) : Metadata :=
  if m.any (fun p => p.1 == k) then
    m.map (fun p => if p.1 == k then (k, v) else p)
  else m ++ [(k, v)]

/-- The common metadata-merge step of `insert_pdf_contents_batch` (lines
100-104) and `insert_pdf_content` (lines 188-192): add `file_size` and
`pages_count` when present. -/
def mergeSizePages (m : Metadata) (file_size pages_count : Option Nat) : Metadata :=
  let m1 := match file_size with
    | some v => dictSet m "file_size" (MVal.n v)
    | none => m
  match pages_count with
  | some v => dictSet m1 "pages_count" (MVal.n v)
  | none => m1

/-- One element of a batch passed to `insert_pdf_contents_batch`:
`(zip_path, pdf_filename, raw_text, metadata, file_size, pages_count)`. -/
structure BatchItem where
  zip_path : String
  pdf_filename : String
  raw_text : String
  metadata : Metadata
  file_size : Option Nat
  pages_count : Option Nat
deriving DecidableEq, Repr

structure Row where
  id : Nat
  zip_path : String
  pdf_filename : String
  metadata : Metadata
deriving DecidableEq, Repr

structure DB where
  nextId : Nat
  rows : List Row
  fts : List (Nat × String)
deriving DecidableEq, Repr

/-- The store right after `create_database_schema` on a fresh file. -/
def emptyDB : DB := ⟨1, [], []⟩

/-- `SELECT id FROM pdf_metadata WHERE zip_path = ? AND pdf_filename = ?`. -/
def lookupId (db : DB) (z p : String) : Option Nat :=
  (db.rows.find? (fun r => r.zip_path == z && r.pdf_filename == p)).map (fun r => r.id)

/-- `INSERT OR IGNORE INTO pdf_metadata (zip_path, pdf_filename, metadata)`. -/
def insertOrIgnoreMeta (db : DB) (z p : String) (m : Metadata) : DB :=
  if (lookupId db z p).isSome then db
  else { nextId := db.nextId + 1
         rows := db.rows ++ [⟨db.nextId, z, p, m⟩]
         fts := db.fts }

/-- `SELECT id, pdf_filename FROM pdf_metadata ORDER BY id DESC LIMIT 1`
(`get_last_entry`, db_manager.py:146-159).  Rows are kept in increasing-id
order (appends only), so the maximal-id row is the last one. -/
def get_last_entry (db : DB) : Option (Nat × String) :=
  db.rows.getLast?.map (fun r => (r.id, r.pdf_filename))

/-- `pdf_exists` (db_manager.py:225-248). -/
def pdf_exists (db : DB) (z p : String) : Bool :=
  (lookupId db z p).isSome

/-- Phase 1 of `insert_pdf_contents_batch` (lines 85-119): for every batch item
compute the merged metadata JSON and run the `INSERT OR IGNORE`.  `w` counts
low-level writes; if the `failAt` oracle names the current write the engine
raises `sqlite3.Error` (simulated external failure). -/
def metaPhase (failAt : Option Nat) : DB → Nat → List BatchItem → Except Unit (DB × Nat)
  | db, w, [] => Except.ok (db, w)
  | db, w, it :: rest =>
    if failAt = some w then Except.error ()
    else metaPhase failAt
      (insertOrIgnoreMeta db it.zip_path it.pdf_filename
        (mergeSizePages it.metadata it.file_size it.pages_count))
      (w + 1) rest

/-- Phase 3 of `insert_pdf_contents_batch` (lines 132-138): plain
`INSERT INTO pdf_search_index(rowid, content)` for each `(text, id)` pair.
A plain FTS5 insert whose rowid is already present fails with
`sqlite3.IntegrityError` (checked against SQLite 3.40). -/
def ftsPhase (failAt : Option Nat) : DB → Nat → List (String × Nat) → Except Unit DB
  | db, _, [] => Except.ok db
  | db, w, (t, rid) :: rest =>
    if failAt = some w then Except.error ()
    else if db.fts.any (fun e => e.1 == rid) then Except.error ()
    else ftsPhase failAt { db with fts := db.fts ++ [(rid, t)] } (w + 1) rest

/-- `insert_pdf_contents_batch` (db_manager.py:70-144).  The whole body runs in
one transaction under `try ... except sqlite3.Error: print(...); rollback()`;
the exception is swallowed, so the second component (whether an error is
surfaced to the caller) is always `false`.  Phase 2 (lines 121-130) collects
the id of every batch key — after the `INSERT OR IGNORE` each `SELECT` finds a
row, and the `i < len(inserted_ids)` guard of phase 3 is the `zip`
truncation. -/
def insert_pdf_contents_batch (db : DB) (batch : List BatchItem)
    (failAt : Option Nat) : DB × Bool :=
  match metaPhase failAt db 0 batch with
  | Except.error _ => (db, false)
  | Except.ok (db1, w) =>
    let inserted_ids := batch.filterMap (fun it => lookupId db1 it.zip_path it.pdf_filename)
    let pairs := (batch.map (fun it => it.raw_text)).zip inserted_ids
    match ftsPhase failAt db1 w pairs with
    | Except.error _ => (db, false)
    | Except.ok db2 => (db2, false)

/-- `insert_pdf_content` (db_manager.py:161-223).  Same merge, then
`INSERT OR IGNORE` into the metadata table, a `SELECT` for the id, and an
`INSERT OR REPLACE INTO pdf_search_index(rowid, content)` (which replaces the
row for an existing rowid; checked against SQLite 3.40).  Its
`except sqlite3.Error` clause rolls back and RE-RAISES, so the second
component records whether the call raised.  The function body ends without a
`return`, i.e. the Python function returns `None` — there is no
created/already-existed result. -/
def insert_pdf_content (db : DB) (z p raw_text : String) (metadata : Metadata)
    (file_size pages_count : Option Nat) (failAt : Option Nat) : DB × Bool :=
  if failAt = some 0 then (db, true)
  else
    match lookupId (insertOrIgnoreMeta db z p (mergeSizePages metadata file_size pages_count)) z p with
    | none => (insertOrIgnoreMeta db z p (mergeSizePages metadata file_size pages_count), false)
    | some record_id =>
      if failAt = some 1 then (db, true)
      else
        ({ insertOrIgnoreMeta db z p (mergeSizePages metadata file_size pages_count) with
            fts := (insertOrIgnoreMeta db z p (mergeSizePages metadata file_size pages_count)).fts.filter
                (fun e => e.1 != record_id) ++ [(record_id, raw_text)] },
         false)

/-! ## Store invariants -/

def rowIds (db : DB) : List Nat := db.rows.map (fun r => r.id)

def rowKeys (db : DB) : List (String × String) :=
  db.rows.map (fun r => (r.zip_path, r.pdf_filename))

def ftsIds (db : DB) : List Nat := db.fts.map (fun e => e.1)

/-- Well-formedness of the store: unique row ids, unique composite keys,
unique FTS rowids, the FTS rowids and the metadata ids are the same set, and
every id is below the autoincrement counter. -/
def WF (db : DB) : Prop :=
  (rowIds db).Nodup ∧
  (rowKeys db).Nodup ∧
  (ftsIds db).Nodup ∧
  (∀ i ∈ ftsIds db, i ∈ rowIds db) ∧
  (∀ i ∈ rowIds db, i ∈ ftsIds db) ∧
  (∀ i ∈ rowIds db, i < db.nextId)

/-- The row-level part of well-formedness (the FTS table untouched). -/
def WFRows (db : DB) : Prop :=
  (rowIds db).Nodup ∧ (rowKeys db).Nodup ∧ (∀ i ∈ rowIds db, i < db.nextId)

theorem WF.toWFRows {db : DB} (h : WF db) : WFRows db :=
  ⟨h.1, h.2.1, h.2.2.2.2.2⟩

theorem lookupId_mem {db : DB} {z p : String} {i : Nat}
    (h : lookupId db z p = some i) :
    ∃ r ∈ db.rows, r.id = i ∧ r.zip_path = z ∧ r.pdf_filename = p := by
  unfold lookupId at h
  cases hf : db.rows.find? (fun r => r.zip_path == z && r.pdf_filename == p) with
  | none => rw [hf] at h; exact Option.noConfusion h
  | some r =>
    rw [hf] at h
    have hp := List.find?_some hf
    simp only [Bool.and_eq_true, beq_iff_eq] at hp
    exact ⟨r, List.mem_of_find?_eq_some hf, by injection h, hp.1, hp.2⟩

theorem lookupId_eq_none {db : DB} {z p : String}
    (h : lookupId db z p = none) :
    ∀ r ∈ db.rows, ¬(r.zip_path = z ∧ r.pdf_filename = p) := by
  unfold lookupId at h
  cases hf : db.rows.find? (fun r => r.zip_path == z && r.pdf_filename == p) with
  | some r => rw [hf] at h; exact Option.noConfusion h
  | none =>
    intro r hr hc
    have := List.find?_eq_none.mp hf r hr
    simp only [Bool.and_eq_true, beq_iff_eq] at this
    exact this ⟨hc.1, hc.2⟩

/-- With unique keys, `find?` on the rows of a present row returns exactly
that row. -/
theorem find?_key_of_mem {rows : List Row}
    (hk : (rows.map (fun x => (x.zip_path, x.pdf_filename))).Nodup) {r : Row}
    (hr : r ∈ rows) :
    rows.find? (fun x => x.zip_path == r.zip_path && x.pdf_filename == r.pdf_filename) = some r := by
  induction rows with
  | nil => cases hr
  | cons a rest ih =>
    simp only [List.map_cons, List.nodup_cons] at hk
    rcases List.mem_cons.mp hr with rfl | hr2
    · rw [List.find?_cons_of_pos _ (by simp)]
    · have hpa : (a.zip_path == r.zip_path && a.pdf_filename == r.pdf_filename) = false := by
        by_contra hcon
        simp only [Bool.not_eq_false, Bool.and_eq_true, beq_iff_eq] at hcon
        exact hk.1 (by
          rw [List.mem_map]
          exact ⟨r, hr2, by rw [hcon.1, hcon.2]⟩)
      rw [List.find?_cons_of_neg _ (by simp [hpa])]
      exact ih hk.2 hr2

/-- With unique keys, the `SELECT id` of a present row finds exactly that
row. -/
theorem lookupId_of_mem {db : DB} (hk : (rowKeys db).Nodup) {r : Row}
    (hr : r ∈ db.rows) :
    lookupId db r.zip_path r.pdf_filename = some r.id := by
  unfold lookupId
  rw [find?_key_of_mem hk hr]
  rfl

/-- Appending rows preserves a successful lookup and its result. -/
theorem lookupId_append {rows ext : List Row} {nid nid2 : Nat}
    {fts fts2 : List (Nat × String)} {z p : String}
    (h : (lookupId ⟨nid, rows, fts⟩ z p).isSome) :
    lookupId ⟨nid2, rows ++ ext, fts2⟩ z p = lookupId ⟨nid, rows, fts⟩ z p := by
  unfold lookupId at h ⊢
  rw [List.find?_append]
  cases hf : rows.find? (fun r => r.zip_path == z && r.pdf_filename == p) with
  | none => rw [hf] at h; simp at h
  | some r => simp [hf]

theorem insertOrIgnoreMeta_fts (db : DB) (z p : String) (m : Metadata) :
    (insertOrIgnoreMeta db z p m).fts = db.fts := by
  unfold insertOrIgnoreMeta
  by_cases h : (lookupId db z p).isSome
  · rw [if_pos h]
  · rw [if_neg h]

theorem insertOrIgnoreMeta_nextId_le (db : DB) (z p : String) (m : Metadata) :
    db.nextId ≤ (insertOrIgnoreMeta db z p m).nextId := by
  unfold insertOrIgnoreMeta
  by_cases h : (lookupId db z p).isSome
  · rw [if_pos h]
  · rw [if_neg h]; exact Nat.le_succ _

theorem insertOrIgnoreMeta_rows (db : DB) (z p : String) (m : Metadata) :
    ∃ ext, (insertOrIgnoreMeta db z p m).rows = db.rows ++ ext ∧
      ∀ r ∈ ext, db.nextId ≤ r.id ∧ r.zip_path = z ∧ r.pdf_filename = p := by
  unfold insertOrIgnoreMeta
  by_cases h : (lookupId db z p).isSome
  · rw [if_pos h]
    exact ⟨[], by simp⟩
  · rw [if_neg h]
    refine ⟨[⟨db.nextId, z, p, m⟩], rfl, ?_⟩
    intro r hr
    rw [List.mem_singleton] at hr
    subst hr
    exact ⟨Nat.le_refl _, rfl, rfl⟩

theorem insertOrIgnoreMeta_lookup_self (db : DB) (z p : String) (m : Metadata) :
    (lookupId (insertOrIgnoreMeta db z p m) z p).isSome := by
  unfold insertOrIgnoreMeta
  by_cases h : (lookupId db z p).isSome
  · rw [if_pos h]; exact h
  · rw [if_neg h]
    unfold lookupId at h ⊢
    rw [List.find?_append]
    cases hf : db.rows.find? (fun r => r.zip_path == z && r.pdf_filename == p) with
    | some r => rw [hf] at h; simp at h
    | none => simp

theorem insertOrIgnoreMeta_lookup_fresh {db : DB} {z p : String} (m : Metadata)
    (h : lookupId db z p = none) :
    lookupId (insertOrIgnoreMeta db z p m) z p = some db.nextId := by
  unfold insertOrIgnoreMeta
  rw [if_neg (by rw [h]; simp)]
  unfold lookupId at h ⊢
  rw [List.find?_append]
  cases hf : db.rows.find? (fun r => r.zip_path == z && r.pdf_filename == p) with
  | some r => rw [hf] at h; exact Option.noConfusion h
  | none => simp

theorem insertOrIgnoreMeta_lookup_mono {db : DB} {z2 p2 : String}
    (z p : String) (m : Metadata) (h : (lookupId db z2 p2).isSome) :
    lookupId (insertOrIgnoreMeta db z p m) z2 p2 = lookupId db z2 p2 := by
  unfold insertOrIgnoreMeta
  by_cases hc : (lookupId db z p).isSome
  · rw [if_pos hc]
  · rw [if_neg hc]
    unfold lookupId at h ⊢
    rw [List.find?_append]
    cases hf : db.rows.find? (fun r => r.zip_path == z2 && r.pdf_filename == p2) with
    | some r => simp [hf]
    | none => rw [hf] at h; simp at h

theorem insertOrIgnoreMeta_wfrows {db : DB} (z p : String) (m : Metadata)
    (h : WFRows db) : WFRows (insertOrIgnoreMeta db z p m) := by
  obtain ⟨hids, hkeys, hlt⟩ := h
  unfold insertOrIgnoreMeta
  by_cases hc : (lookupId db z p).isSome
  · rw [if_pos hc]; exact ⟨hids, hkeys, hlt⟩
  · rw [if_neg hc]
    rw [Option.not_isSome_iff_eq_none] at hc
    refine ⟨?_, ?_, ?_⟩
    · show ((db.rows ++ [Row.mk db.nextId z p m]).map (fun r => r.id)).Nodup
      rw [List.map_append, List.nodup_append]
      refine ⟨hids, List.nodup_singleton _, ?_⟩
      intro x hx hy
      simp only [List.map_cons, List.map_nil, List.mem_singleton] at hy
      subst hy
      exact absurd (hlt _ hx) (by simp)
    · show ((db.rows ++ [Row.mk db.nextId z p m]).map (fun r => (r.zip_path, r.pdf_filename))).Nodup
      rw [List.map_append, List.nodup_append]
      refine ⟨hkeys, List.nodup_singleton _, ?_⟩
      intro x hx hy
      simp only [List.map_cons, List.map_nil, List.mem_singleton] at hy
      subst hy
      rw [List.mem_map] at hx
      obtain ⟨r, hr, hkey⟩ := hx
      have := lookupId_eq_none hc r hr
      exact this ⟨congrArg Prod.fst hkey, congrArg Prod.snd hkey⟩
    · show ∀ i ∈ (db.rows ++ [Row.mk db.nextId z p m]).map (fun r => r.id), i < db.nextId + 1
      intro i hi
      rw [List.map_append, List.mem_append] at hi
      rcases hi with hi | hi
      · exact Nat.lt_succ_of_lt (hlt i hi)
      · simp only [List.map_cons, List.map_nil, List.mem_singleton] at hi
        subst hi
        exact Nat.lt_succ_self _

/-- Everything phase 1 of the batch insert guarantees on success: the FTS table
is untouched, rows are only appended (with fresh ids, keyed by batch items),
every batch key is afterwards present, row-level well-formedness is preserved,
and pre-existing lookups are unchanged. -/
theorem metaPhase_ok {f : Option Nat} :
    ∀ {batch : List BatchItem} {db : DB} {w : Nat} {db1 : DB} {w1 : Nat},
    metaPhase f db w batch = Except.ok (db1, w1) →
    db1.fts = db.fts ∧
    db.nextId ≤ db1.nextId ∧
    (∃ ext, db1.rows = db.rows ++ ext ∧
      ∀ r ∈ ext, db.nextId ≤ r.id ∧
        ∃ it ∈ batch, r.zip_path = it.zip_path ∧ r.pdf_filename = it.pdf_filename) ∧
    (∀ it ∈ batch, (lookupId db1 it.zip_path it.pdf_filename).isSome) ∧
    (WFRows db → WFRows db1) ∧
    (∀ z p, (lookupId db z p).isSome → lookupId db1 z p = lookupId db z p) := by
  intro batch
  induction batch with
  | nil =>
    intro db w db1 w1 h
    unfold metaPhase at h
    injection h with h
    injection h with h1 h2
    subst h1
    refine ⟨rfl, Nat.le_refl _, ⟨[], by simp, by simp⟩, by simp, fun hw => hw, fun z p _ => rfl⟩
  | cons it rest ih =>
    intro db w db1 w1 h
    unfold metaPhase at h
    by_cases hif : f = some w
    · rw [if_pos hif] at h; exact Except.noConfusion h
    · rw [if_neg hif] at h
      set dbm := insertOrIgnoreMeta db it.zip_path it.pdf_filename
        (mergeSizePages it.metadata it.file_size it.pages_count) with hdbm
      obtain ⟨hfts, hle, ⟨ext1, hrows1, hext1⟩, hlook1, hwf1, hmono1⟩ := ih h
      obtain ⟨ext0, hrows0, hext0⟩ :=
        insertOrIgnoreMeta_rows db it.zip_path it.pdf_filename
          (mergeSizePages it.metadata it.file_size it.pages_count)
      have hftsm : dbm.fts = db.fts :=
        insertOrIgnoreMeta_fts db it.zip_path it.pdf_filename _
      have hlem : db.nextId ≤ dbm.nextId :=
        insertOrIgnoreMeta_nextId_le db it.zip_path it.pdf_filename _
      refine ⟨?_, ?_, ?_, ?_, ?_, ?_⟩
      · rw [hfts, hftsm]
      · exact Nat.le_trans hlem hle
      · refine ⟨ext0 ++ ext1, ?_, ?_⟩
        · rw [← hdbm] at hrows0
          rw [hrows1, hrows0, List.append_assoc]
        · intro r hr
          rcases List.mem_append.mp hr with hr | hr
          · obtain ⟨hid, hz, hp⟩ := hext0 r hr
            exact ⟨hid, it, List.mem_cons_self _ _, hz, hp⟩
          · obtain ⟨hid, it2, hit2, hkey⟩ := hext1 r hr
            exact ⟨Nat.le_trans hlem hid, it2, List.mem_cons_of_mem _ hit2, hkey⟩
      · intro it2 hit2
        rcases List.mem_cons.mp hit2 with rfl | hit2
        · have hself : (lookupId dbm it2.zip_path it2.pdf_filename).isSome :=
            insertOrIgnoreMeta_lookup_self db it2.zip_path it2.pdf_filename _
          rw [hmono1 _ _ hself]
          exact hself
        · exact hlook1 it2 hit2
      · intro hw
        exact hwf1 (insertOrIgnoreMeta_wfrows it.zip_path it.pdf_filename _ hw)
      · intro z p hz
        have hm : lookupId dbm z p = lookupId db z p :=
          insertOrIgnoreMeta_lookup_mono it.zip_path it.pdf_filename _ hz
        rw [hmono1 z p (by rw [hm]; exact hz), hm]

/-- On success, phase 3 appends exactly one FTS row per pair, touches nothing
else, and preserves rowid uniqueness. -/
theorem ftsPhase_ok {f : Option Nat} :
    ∀ {pairs : List (String × Nat)} {db : DB} {w : Nat} {db2 : DB},
    ftsPhase f db w pairs = Except.ok db2 →
    db2.rows = db.rows ∧ db2.nextId = db.nextId ∧
    db2.fts = db.fts ++ pairs.map (fun pr => (pr.2, pr.1)) ∧
    ((ftsIds db).Nodup → (ftsIds db2).Nodup) := by
  intro pairs
  induction pairs with
  | nil =>
    intro db w db2 h
    unfold ftsPhase at h
    injection h with h
    subst h
    exact ⟨rfl, rfl, by simp, fun hn => hn⟩
  | cons pr rest ih =>
    intro db w db2 h
    obtain ⟨t, rid⟩ := pr
    unfold ftsPhase at h
    by_cases hif : f = some w
    · rw [if_pos hif] at h; exact Except.noConfusion h
    · rw [if_neg hif] at h
      by_cases hdup : db.fts.any (fun e => e.1 == rid)
      · rw [if_pos hdup] at h; exact Except.noConfusion h
      · rw [if_neg hdup] at h
        obtain ⟨hrows, hnid, hfts, hnodup⟩ := ih h
        refine ⟨hrows, hnid, ?_, ?_⟩
        · rw [hfts]
          simp [List.append_assoc]
        · intro hn
          apply hnodup
          show ((db.fts ++ [(rid, t)]).map (fun e => e.1)).Nodup
          rw [List.map_append, List.nodup_append]
          refine ⟨hn, by simp, ?_⟩
          intro x hx hy
          simp only [List.map_cons, List.map_nil, List.mem_singleton] at hy
          subst hy
          rw [Bool.not_eq_true, List.any_eq_false] at hdup
          rw [List.mem_map] at hx
          obtain ⟨e, he, hfst⟩ := hx
          have hne := hdup e he
          rw [hfst] at hne
          simp at hne

/-- If some pair's rowid is already present in the FTS table, phase 3 cannot
succeed: the plain FTS5 insert for that pair (or an earlier failure) raises. -/
theorem ftsPhase_ne_ok {f : Option Nat} :
    ∀ {pairs : List (String × Nat)} {db : DB} {w : Nat},
    (∃ pr ∈ pairs, pr.2 ∈ ftsIds db) →
    ∀ db2, ftsPhase f db w pairs ≠ Except.ok db2 := by
  intro pairs
  induction pairs with
  | nil =>
    intro db w h db2
    obtain ⟨pr, hpr, _⟩ := h
    cases hpr
  | cons hd rest ih =>
    intro db w h db2
    obtain ⟨t, rid⟩ := hd
    unfold ftsPhase
    by_cases hif : f = some w
    · rw [if_pos hif]; exact fun hc => Except.noConfusion hc
    · rw [if_neg hif]
      by_cases hdup : db.fts.any (fun e => e.1 == rid)
      · rw [if_pos hdup]; exact fun hc => Except.noConfusion hc
      · rw [if_neg hdup]
        obtain ⟨pr, hpr, hmem⟩ := h
        rcases List.mem_cons.mp hpr with rfl | hpr2
        · exfalso
          rw [Bool.not_eq_true, List.any_eq_false] at hdup
          unfold ftsIds at hmem
          rw [List.mem_map] at hmem
          obtain ⟨e, he, hfst⟩ := hmem
          have hne := hdup e he
          rw [hfst] at hne
          simp at hne
        · apply ih
          refine ⟨pr, hpr2, ?_⟩
          show pr.2 ∈ (db.fts ++ [(rid, t)]).map (fun e => e.1)
          rw [List.map_append, List.mem_append]
          exact Or.inl hmem

/-- `filterMap` of an everywhere-`some` function keeps the length. -/
theorem filterMap_length_of_isSome {α β : Type} (g : α → Option β) :
    ∀ (l : List α), (∀ x ∈ l, (g x).isSome) → (l.filterMap g).length = l.length := by
  intro l
  induction l with
  | nil => intro _; rfl
  | cons a rest ih =>
    intro h
    have ha := h a (List.mem_cons_self a rest)
    cases hg : g a with
    | none => rw [hg] at ha; simp at ha
    | some b =>
      rw [List.filterMap_cons, hg]
      simp only [List.length_cons]
      rw [ih (fun x hx => h x (List.mem_cons_of_mem a hx))]

/-- Abbreviation for the phase-3 input built inside `insert_pdf_contents_batch`. -/
def batchPairs (db1 : DB) (batch : List BatchItem) : List (String × Nat) :=
  (batch.map (fun it => it.raw_text)).zip
    (batch.filterMap (fun it => lookupId db1 it.zip_path it.pdf_filename))

/-- `insert_pdf_contents_batch` either rolls back to the entry state or
commits the phase results; the swallowed exception means the raised flag is
always `false`. -/
theorem insert_pdf_contents_batch_cases (db : DB) (batch : List BatchItem)
    (f : Option Nat) :
    (insert_pdf_contents_batch db batch f = (db, false)) ∨
    (∃ db1 w db2, metaPhase f db 0 batch = Except.ok (db1, w) ∧
      ftsPhase f db1 w (batchPairs db1 batch) = Except.ok db2 ∧
      insert_pdf_contents_batch db batch f = (db2, false)) := by
  unfold insert_pdf_contents_batch
  cases hm : metaPhase f db 0 batch with
  | error e => exact Or.inl rfl
  | ok res =>
    obtain ⟨db1, w⟩ := res
    cases hf2 : ftsPhase f db1 w (batchPairs db1 batch) with
    | error e =>
      left
      show (match ftsPhase f db1 w (batchPairs db1 batch) with
        | Except.error _ => (db, false)
        | Except.ok db2 => (db2, false)) = (db, false)
      rw [hf2]
    | ok db2 =>
      right
      refine ⟨db1, w, db2, rfl, hf2, ?_⟩
      show (match ftsPhase f db1 w (batchPairs db1 batch) with
        | Except.error _ => (db, false)
        | Except.ok db2 => (db2, false)) = (db2, false)
      rw [hf2]

/-- The `except sqlite3.Error` clause of `insert_pdf_contents_batch` swallows
every engine failure: no error ever reaches the caller. -/
theorem insert_pdf_contents_batch_no_raise (db : DB) (batch : List BatchItem)
    (f : Option Nat) : (insert_pdf_contents_batch db batch f).2 = false := by
  rcases insert_pdf_contents_batch_cases db batch f with h | ⟨_, _, _, _, _, h⟩ <;>
    rw [h]

/-- A committed batch preserves store well-formedness. -/
theorem insert_pdf_contents_batch_wf (db : DB) (batch : List BatchItem)
    (f : Option Nat) (hwf : WF db) : WF (insert_pdf_contents_batch db batch f).1 := by
  rcases insert_pdf_contents_batch_cases db batch f with h | ⟨db1, w, db2, hm, hf2, h⟩
  · rw [h]; exact hwf
  · rw [h]
    obtain ⟨hids, hkeys, hfids, hftssub, hrowssub, hlt⟩ := hwf
    obtain ⟨hfts1, hle1, ⟨ext, hrows1, hext⟩, hlook, hwfr1fun, hmono⟩ := metaPhase_ok hm
    have hwfr1 : WFRows db1 := hwfr1fun ⟨hids, hkeys, hlt⟩
    obtain ⟨hids1, hkeys1, hlt1⟩ := hwfr1
    obtain ⟨hrows2, hnid2, hfts2, hnodup2⟩ := ftsPhase_ok hf2
    set ids := batch.filterMap (fun it => lookupId db1 it.zip_path it.pdf_filename) with hids_def
    have hlen_ids : ids.length = batch.length :=
      filterMap_length_of_isSome _ batch hlook
    have hsnd : (batchPairs db1 batch).map Prod.snd = ids := by
      unfold batchPairs
      apply List.map_snd_zip
      rw [List.length_map, hlen_ids]
    have hftsIds2 : ftsIds db2 = ftsIds db ++ ids := by
      unfold ftsIds
      rw [hfts2, List.map_append, hfts1, List.map_map, ← hsnd]
      congr 1
    have hrowIds2 : rowIds db2 = rowIds db1 := by
      unfold rowIds; rw [hrows2]
    have hrowKeys2 : rowKeys db2 = rowKeys db1 := by
      unfold rowKeys; rw [hrows2]
    have hrowIds1 : rowIds db1 = rowIds db ++ ext.map (fun r => r.id) := by
      unfold rowIds; rw [hrows1, List.map_append]
    have hids_mem : ∀ i ∈ ids, ∃ r ∈ db1.rows, r.id = i := by
      intro i hi
      rw [hids_def, List.mem_filterMap] at hi
      obtain ⟨it, _, hsome⟩ := hi
      obtain ⟨r, hr, hrid, _, _⟩ := lookupId_mem hsome
      exact ⟨r, hr, hrid⟩
    have hext_ids : ∀ r ∈ ext, r.id ∈ ids := by
      intro r hr
      have hrmem : r ∈ db1.rows := by
        rw [hrows1]; exact List.mem_append.mpr (Or.inr hr)
      obtain ⟨_, it, hit, hz, hp⟩ := hext r hr
      rw [hids_def, List.mem_filterMap]
      refine ⟨it, hit, ?_⟩
      have hlk := lookupId_of_mem hkeys1 hrmem
      rw [hz, hp] at hlk
      exact hlk
    refine ⟨?_, ?_, ?_, ?_, ?_, ?_⟩
    · rw [hrowIds2]; exact hids1
    · rw [hrowKeys2]; exact hkeys1
    · apply hnodup2
      show (db1.fts.map (fun e => e.1)).Nodup
      rw [hfts1]
      exact hfids
    · intro i hi
      rw [hftsIds2, List.mem_append] at hi
      rw [hrowIds2]
      rcases hi with hi | hi
      · rw [hrowIds1, List.mem_append]
        exact Or.inl (hftssub i hi)
      · obtain ⟨r, hr, hrid⟩ := hids_mem i hi
        subst hrid
        unfold rowIds
        rw [List.mem_map]
        exact ⟨r, hr, rfl⟩
    · intro i hi
      rw [hrowIds2, hrowIds1, List.mem_append] at hi
      rw [hftsIds2, List.mem_append]
      rcases hi with hi | hi
      · exact Or.inl (hrowssub i hi)
      · rw [List.mem_map] at hi
        obtain ⟨r, hr, hrid⟩ := hi
        subst hrid
        exact Or.inr (hext_ids r hr)
    · intro i hi
      rw [hrowIds2] at hi
      rw [hnid2]
      exact hlt1 i hi

theorem filter_ne_map_fst (l : List (Nat × String)) (rid : Nat) :
    (l.filter (fun e => e.1 != rid)).map (fun e => e.1) =
      (l.map (fun e => e.1)).filter (fun i => i != rid) := by
  induction l with
  | nil => rfl
  | cons e rest ih =>
    simp only [List.filter_cons, List.map_cons]
    by_cases h : (e.1 != rid) = true
    · rw [if_pos h, List.map_cons, ih, if_pos h]
    · rw [Bool.not_eq_true] at h
      rw [if_neg (by simp [h]), ih, if_neg (by simp [h])]


/-- `insert_pdf_content` either raises after rolling back (the re-raised
`sqlite3.Error` path), or commits the merged metadata insert plus the
`INSERT OR REPLACE` of the FTS row for the looked-up id. -/
theorem insert_pdf_content_cases (db : DB) (z p t : String) (m : Metadata)
    (fs pc : Option Nat) (f : Option Nat) :
    insert_pdf_content db z p t m fs pc f = (db, true) ∨
    (∃ rid,
      lookupId (insertOrIgnoreMeta db z p (mergeSizePages m fs pc)) z p = some rid ∧
      insert_pdf_content db z p t m fs pc f =
        ({ insertOrIgnoreMeta db z p (mergeSizePages m fs pc) with
            fts := (insertOrIgnoreMeta db z p (mergeSizePages m fs pc)).fts.filter
                (fun e => e.1 != rid) ++ [(rid, t)] },
         false)) := by
  by_cases hf0 : f = some 0
  · left; unfold insert_pdf_content; rw [if_pos hf0]
  · cases hl : lookupId (insertOrIgnoreMeta db z p (mergeSizePages m fs pc)) z p with
    | none =>
      exfalso
      have := insertOrIgnoreMeta_lookup_self db z p (mergeSizePages m fs pc)
      rw [hl] at this
      simp at this
    | some rid =>
      have hred : insert_pdf_content db z p t m fs pc f =
          (if f = some 1 then (db, true)
           else ({ insertOrIgnoreMeta db z p (mergeSizePages m fs pc) with
              fts := (insertOrIgnoreMeta db z p (mergeSizePages m fs pc)).fts.filter
                  (fun e => e.1 != rid) ++ [(rid, t)] }, false)) := by
        unfold insert_pdf_content
        rw [if_neg hf0, hl]
      by_cases hf1 : f = some 1
      · left; rw [hred, if_pos hf1]
      · right; exact ⟨rid, rfl, by rw [hred, if_neg hf1]⟩

/-- A single-record insert preserves store well-formedness (whether the key is
fresh, already present, or the engine raises and rolls back). -/
theorem insert_pdf_content_wf (db : DB) (z p t : String) (m : Metadata)
    (fs pc : Option Nat) (f : Option Nat) (hwf : WF db) :
    WF (insert_pdf_content db z p t m fs pc f).1 := by
  rcases insert_pdf_content_cases db z p t m fs pc f with h | ⟨rid, hl, h⟩
  · rw [h]; exact hwf
  · rw [h]
    obtain ⟨hids, hkeys, hfids, hftssub, hrowssub, hlt⟩ := hwf
    set mj := mergeSizePages m fs pc with hmj
    set db1 := insertOrIgnoreMeta db z p mj with hdb1
    have hwfr1 : WFRows db1 :=
      insertOrIgnoreMeta_wfrows z p mj ⟨hids, hkeys, hlt⟩
    obtain ⟨hids1, hkeys1, hlt1⟩ := hwfr1
    have hftsdb1 : db1.fts = db.fts := insertOrIgnoreMeta_fts db z p mj
    have hrid_row : ∃ r ∈ db1.rows, r.id = rid ∧ r.zip_path = z ∧ r.pdf_filename = p :=
      lookupId_mem hl
    obtain ⟨ext, hrows, hext⟩ := insertOrIgnoreMeta_rows db z p mj
    rw [← hdb1] at hrows
    have hftsIds2 :
        ((db1.fts.filter (fun e => e.1 != rid) ++ [(rid, t)]).map (fun e => e.1)) =
          ((db.fts.map (fun e => e.1)).filter (fun i => i != rid)) ++ [rid] := by
      rw [List.map_append, filter_ne_map_fst, hftsdb1]
      rfl
    refine ⟨hids1, hkeys1, ?_, ?_, ?_, ?_⟩
    · show ((db1.fts.filter (fun e => e.1 != rid) ++ [(rid, t)]).map (fun e => e.1)).Nodup
      rw [hftsIds2, List.nodup_append]
      refine ⟨List.Nodup.filter _ hfids, List.nodup_singleton _, ?_⟩
      intro x hx hy
      rw [List.mem_singleton] at hy
      subst hy
      rw [List.mem_filter] at hx
      simp at hx
    · intro i hi
      show i ∈ rowIds db1
      unfold ftsIds at hi
      rw [hftsIds2, List.mem_append] at hi
      rcases hi with hi | hi
      · rw [List.mem_filter] at hi
        have hold : i ∈ rowIds db := hftssub i hi.1
        unfold rowIds at hold ⊢
        rw [hrows, List.map_append, List.mem_append]
        exact Or.inl hold
      · rw [List.mem_singleton] at hi
        subst hi
        obtain ⟨r, hr, hrid, _, _⟩ := hrid_row
        unfold rowIds
        rw [List.mem_map]
        exact ⟨r, hr, hrid⟩
    · intro i hi
      show i ∈ (db1.fts.filter (fun e => e.1 != rid) ++ [(rid, t)]).map (fun e => e.1)
      rw [hftsIds2, List.mem_append]
      by_cases hir : i = rid
      · right; rw [hir]; exact List.mem_singleton.mpr rfl
      · left
        rw [List.mem_filter]
        refine ⟨?_, by simp [hir]⟩
        unfold rowIds at hi
        rw [List.mem_map] at hi
        obtain ⟨r, hr, hrid_eq⟩ := hi
        rw [hrows, List.mem_append] at hr
        rcases hr with hr | hr
        · exact hrowssub i (by
            unfold rowIds
            rw [List.mem_map]
            exact ⟨r, hr, hrid_eq⟩)
        · exfalso
          obtain ⟨hge, hz, hp⟩ := hext r hr
          have hlk := lookupId_of_mem hkeys1 (by
            rw [hrows, List.mem_append]; exact Or.inr hr)
          rw [hz, hp] at hlk
          rw [hl] at hlk
          injection hlk with hlk
          exact hir (by rw [← hrid_eq, hlk])
    · intro i hi
      show i < db1.nextId
      exact hlt1 i hi

/-! ## C4: the 1:1 metadata/search-index invariant over operation sequences -/

/-- A store operation: one `insert_pdf_contents_batch` call or one
`insert_pdf_content` call, each with its engine-failure oracle. -/
inductive StoreOp where
  | batchOp (batch : List BatchItem) (failAt : Option Nat)
  | oneOp (z p t : String) (m : Metadata) (fs pc : Option Nat) (failAt : Option Nat)

def applyOp (db : DB) : StoreOp → DB
  | StoreOp.batchOp b f => (insert_pdf_contents_batch db b f).1
  | StoreOp.oneOp z p t m fs pc f => (insert_pdf_content db z p t m fs pc f).1

/-- Run any sequence of store operations against a freshly initialised store. -/
def runOps (ops : List StoreOp) : DB := ops.foldl applyOp emptyDB

theorem applyOp_wf (db : DB) (op : StoreOp) (h : WF db) : WF (applyOp db op) := by
  cases op with
  | batchOp b f => exact insert_pdf_contents_batch_wf db b f h
  | oneOp z p t m fs pc f => exact insert_pdf_content_wf db z p t m fs pc f h

theorem WF_emptyDB : WF emptyDB := by
  refine ⟨?_, ?_, ?_, ?_, ?_, ?_⟩ <;> simp [rowIds, rowKeys, ftsIds, emptyDB]

theorem foldl_applyOp_wf (ops : List StoreOp) :
    ∀ db : DB, WF db → WF (ops.foldl applyOp db) := by
  induction ops with
  | nil => intro db h; exact h
  | cons op rest ih =>
    intro db h
    exact ih (applyOp db op) (applyOp_wf db op h)

theorem runOps_wf (ops : List StoreOp) : WF (runOps ops) :=
  foldl_applyOp_wf ops emptyDB WF_emptyDB

theorem filter_beq_length_le_one (l : List (Nat × String))
    (h : (l.map (fun e => e.1)).Nodup) (a : Nat) :
    (l.filter (fun e => e.1 == a)).length ≤ 1 := by
  induction l with
  | nil => simp
  | cons e rest ih =>
    rw [List.map_cons, List.nodup_cons] at h
    rw [List.filter_cons]
    by_cases he : (e.1 == a) = true
    · rw [if_pos he]
      have hempty : rest.filter (fun x => x.1 == a) = [] := by
        rw [List.filter_eq_nil_iff]
        intro x hx hc
        apply h.1
        rw [List.mem_map]
        have hxa : x.1 = a := by simpa using hc
        have hea : e.1 = a := by simpa using he
        exact ⟨x, hx, by rw [hxa, hea]⟩
      rw [hempty]
      simp
    · rw [if_neg he]
      exact ih h.2

theorem nodup_mutual_length {l1 l2 : List Nat} (h1 : l1.Nodup) (h2 : l2.Nodup)
    (s12 : ∀ x ∈ l1, x ∈ l2) (s21 : ∀ x ∈ l2, x ∈ l1) : l1.length = l2.length := by
  have hfin : l1.toFinset = l2.toFinset := by
    apply Finset.ext
    intro a
    rw [List.mem_toFinset, List.mem_toFinset]
    exact ⟨fun h => s12 a h, fun h => s21 a h⟩
  rw [← List.toFinset_card_of_nodup h1, ← List.toFinset_card_of_nodup h2, hfin]

/-- **C4** (confirmed).  After every completed store operation — any sequence
of `insert_batch`/`insert_one` calls on any inputs (repeated keys, mixed
batches, simulated engine failures included) — every metadata row has at most
one search-index entry, and the full-text index's row count equals the
metadata table's row count. -/
theorem C4_metadata_index_one_to_one (ops : List StoreOp) :
    (∀ r ∈ (runOps ops).rows,
      ((runOps ops).fts.filter (fun e => e.1 == r.id)).length ≤ 1) ∧
    (runOps ops).fts.length = (runOps ops).rows.length := by
  obtain ⟨hids, _, hfids, hftssub, hrowssub, _⟩ := runOps_wf ops
  constructor
  · intro r _
    exact filter_beq_length_le_one _ hfids r.id
  · have := nodup_mutual_length hfids hids hftssub hrowssub
    unfold ftsIds rowIds at this
    rw [List.length_map, List.length_map] at this
    exact this

/-! ## C3: batch atomicity -/

theorem metaPhase_ok_none {f : Option Nat} :
    ∀ {batch : List BatchItem} {db : DB} {w : Nat} {r : DB × Nat},
    metaPhase f db w batch = Except.ok r → metaPhase none db w batch = Except.ok r := by
  intro batch
  induction batch with
  | nil => intro db w r h; exact h
  | cons it rest ih =>
    intro db w r h
    unfold metaPhase at h ⊢
    by_cases hif : f = some w
    · rw [if_pos hif] at h; exact Except.noConfusion h
    · rw [if_neg hif] at h
      rw [if_neg (by simp)]
      exact ih h

theorem ftsPhase_ok_none {f : Option Nat} :
    ∀ {pairs : List (String × Nat)} {db : DB} {w : Nat} {db2 : DB},
    ftsPhase f db w pairs = Except.ok db2 → ftsPhase none db w pairs = Except.ok db2 := by
  intro pairs
  induction pairs with
  | nil => intro db w db2 h; exact h
  | cons pr rest ih =>
    intro db w db2 h
    obtain ⟨t, rid⟩ := pr
    unfold ftsPhase at h ⊢
    by_cases hif : f = some w
    · rw [if_pos hif] at h; exact Except.noConfusion h
    · rw [if_neg hif] at h
      rw [if_neg (by simp)]
      by_cases hdup : db.fts.any (fun e => e.1 == rid)
      · rw [if_pos hdup] at h; exact Except.noConfusion h
      · rw [if_neg hdup] at h
        rw [if_neg hdup]
        exact ih h

theorem insert_pdf_contents_batch_eq_of_phases {db : DB} {batch : List BatchItem}
    {f : Option Nat} {db1 : DB} {w : Nat} {db2 : DB}
    (hm : metaPhase f db 0 batch = Except.ok (db1, w))
    (hf2 : ftsPhase f db1 w (batchPairs db1 batch) = Except.ok db2) :
    insert_pdf_contents_batch db batch f = (db2, false) := by
  unfold insert_pdf_contents_batch
  rw [hm]
  show (match ftsPhase f db1 w (batchPairs db1 batch) with
    | Except.error _ => (db, false)
    | Except.ok d => (d, false)) = (db2, false)
  rw [hf2]

/-- **C3** (corrected).  `insert_batch` is atomic: whatever the engine-failure
oracle does, the call either leaves the store exactly as it was (full rollback
— 0 of the batch's rows remain) or produces the full failure-free result (all
newly-inserted rows and their index entries visible); however, no
`BatchInsertError` is ever surfaced to the caller: the `except sqlite3.Error`
clause prints and swallows the failure, and the call returns normally (raised
flag always `false`). -/
theorem C3_insert_batch_atomic_amended (db : DB) (batch : List BatchItem)
    (failAt : Option Nat) :
    (insert_pdf_contents_batch db batch failAt).2 = false ∧
    ((insert_pdf_contents_batch db batch failAt).1 = db ∨
      (insert_pdf_contents_batch db batch failAt).1 =
        (insert_pdf_contents_batch db batch none).1) := by
  refine ⟨insert_pdf_contents_batch_no_raise db batch failAt, ?_⟩
  rcases insert_pdf_contents_batch_cases db batch failAt with h | ⟨db1, w, db2, hm, hf2, h⟩
  · left; rw [h]
  · right
    rw [h, insert_pdf_contents_batch_eq_of_phases (metaPhase_ok_none hm) (ftsPhase_ok_none hf2)]

/-- **C3** counterexample.  A simulated engine failure after writing 1 of the
2 records of a batch: the whole batch is rolled back (the store is exactly the
entry state, here the empty store), but no `BatchInsertError` reaches the
caller — the raised flag is `false`, refuting "a BatchInsertError naming the
batch is surfaced to the caller". -/
theorem C3_counterexample :
    insert_pdf_contents_batch emptyDB
      [⟨"a.zip", "p.pdf", "alpha", [], none, none⟩,
       ⟨"b.zip", "q.pdf", "beta", [], none, none⟩] (some 1) = (emptyDB, false) := by
  rfl

/-! ## C5: per-record behaviour of `insert_pdf_contents_batch` -/

/-- The rows a fully-fresh batch adds, ids assigned consecutively from
`base`, metadata merged with size/pages. -/
def rowsOf (base : Nat) : List BatchItem → List Row
  | [] => []
  | it :: rest =>
    ⟨base, it.zip_path, it.pdf_filename,
      mergeSizePages it.metadata it.file_size it.pages_count⟩ :: rowsOf (base + 1) rest

/-- The FTS rows a fully-fresh batch adds: each text keyed by its new row id. -/
def ftsOf (base : Nat) : List BatchItem → List (Nat × String)
  | [] => []
  | it :: rest => (base, it.raw_text) :: ftsOf (base + 1) rest

/-- The ids phase 2 collects for a fully-fresh batch. -/
def idsOf (base : Nat) : List BatchItem → List Nat
  | [] => []
  | _ :: rest => base :: idsOf (base + 1) rest

def keysDistinct (batch : List BatchItem) : Prop :=
  (batch.map (fun it => (it.zip_path, it.pdf_filename))).Nodup

theorem lookupId_insert_other {db : DB} {z2 p2 : String} (z p : String)
    (m : Metadata) (h : lookupId db z2 p2 = none) (hne : ¬(z = z2 ∧ p = p2)) :
    lookupId (insertOrIgnoreMeta db z p m) z2 p2 = none := by
  unfold insertOrIgnoreMeta
  by_cases hc : (lookupId db z p).isSome
  · rw [if_pos hc]; exact h
  · rw [if_neg hc]
    unfold lookupId at h ⊢
    rw [List.find?_append]
    cases hf : db.rows.find? (fun r => r.zip_path == z2 && r.pdf_filename == p2) with
    | some r => rw [hf] at h; exact Option.noConfusion h
    | none =>
      rw [Option.none_or]
      have hpred : ((Row.mk db.nextId z p m).zip_path == z2 &&
          (Row.mk db.nextId z p m).pdf_filename == p2) = false := by
        by_contra hcon
        simp only [Bool.not_eq_false, Bool.and_eq_true, beq_iff_eq] at hcon
        exact hne ⟨hcon.1, hcon.2⟩
      rw [List.find?_cons_of_neg _ (by simp [hpred]), List.find?_nil]
      rfl

/-- Phase 1 on an all-fresh, duplicate-free batch: every record is inserted,
with consecutive ids and merged metadata. -/
theorem metaPhase_fresh :
    ∀ (batch : List BatchItem) (db : DB) (w : Nat),
    (∀ it ∈ batch, lookupId db it.zip_path it.pdf_filename = none) →
    keysDistinct batch →
    metaPhase none db w batch =
      Except.ok (⟨db.nextId + batch.length, db.rows ++ rowsOf db.nextId batch, db.fts⟩,
        w + batch.length) := by
  intro batch
  induction batch with
  | nil =>
    intro db w _ _
    unfold metaPhase rowsOf
    cases db with
    | mk nid rows fts => simp
  | cons it rest ih =>
    intro db w hfresh hdist
    unfold metaPhase
    rw [if_neg (by simp)]
    have hit : lookupId db it.zip_path it.pdf_filename = none :=
      hfresh it (List.mem_cons_self _ _)
    have hins : insertOrIgnoreMeta db it.zip_path it.pdf_filename
        (mergeSizePages it.metadata it.file_size it.pages_count) =
        ⟨db.nextId + 1,
         db.rows ++ [⟨db.nextId, it.zip_path, it.pdf_filename,
           mergeSizePages it.metadata it.file_size it.pages_count⟩],
         db.fts⟩ := by
      unfold insertOrIgnoreMeta
      rw [if_neg (by rw [hit]; simp)]
    rw [hins]
    unfold keysDistinct at hdist
    rw [List.map_cons, List.nodup_cons] at hdist
    have hfresh2 : ∀ it2 ∈ rest,
        lookupId ⟨db.nextId + 1,
          db.rows ++ [⟨db.nextId, it.zip_path, it.pdf_filename,
            mergeSizePages it.metadata it.file_size it.pages_count⟩],
          db.fts⟩ it2.zip_path it2.pdf_filename = none := by
      intro it2 hit2
      have h2 : lookupId db it2.zip_path it2.pdf_filename = none :=
        hfresh it2 (List.mem_cons_of_mem _ hit2)
      have hne : ¬(it.zip_path = it2.zip_path ∧ it.pdf_filename = it2.pdf_filename) := by
        intro hcon
        apply hdist.1
        rw [List.mem_map]
        exact ⟨it2, hit2, by rw [hcon.1, hcon.2]⟩
      have := lookupId_insert_other it.zip_path it.pdf_filename
        (mergeSizePages it.metadata it.file_size it.pages_count) h2 hne
      unfold insertOrIgnoreMeta at this
      rw [if_neg (by rw [hit]; simp)] at this
      exact this
    rw [ih _ (w + 1) hfresh2 hdist.2]
    rw [rowsOf]
    simp only [List.length_cons, List.append_assoc, List.singleton_append]
    have h1 : db.nextId + 1 + rest.length = db.nextId + (rest.length + 1) := by omega
    have h2 : w + 1 + rest.length = w + (rest.length + 1) := by omega
    rw [h1, h2]

/-- Phase 2 on the rows a fresh batch created: the collected ids are exactly
the consecutive new ids. -/
theorem filterMap_lookup_rowsOf :
    ∀ (batch : List BatchItem) (base : Nat) (db1 : DB),
    (rowKeys db1).Nodup →
    (∀ r ∈ rowsOf base batch, r ∈ db1.rows) →
    batch.filterMap (fun it => lookupId db1 it.zip_path it.pdf_filename) =
      idsOf base batch := by
  intro batch
  induction batch with
  | nil => intro base db1 _ _; rfl
  | cons it rest ih =>
    intro base db1 hk hmem
    have hr0 : (⟨base, it.zip_path, it.pdf_filename,
        mergeSizePages it.metadata it.file_size it.pages_count⟩ : Row) ∈ db1.rows := by
      apply hmem
      rw [rowsOf]
      exact List.mem_cons_self _ _
    have hlk := lookupId_of_mem hk hr0
    rw [List.filterMap_cons, hlk, idsOf]
    show base :: rest.filterMap (fun it => lookupId db1 it.zip_path it.pdf_filename) =
      base :: idsOf (base + 1) rest
    congr 1
    apply ih (base + 1) db1 hk
    intro r hr
    apply hmem
    rw [rowsOf]
    exact List.mem_cons_of_mem _ hr

/-- Phase 3 on a fresh batch: all new rowids are above every existing FTS
rowid, so every insert succeeds and the index rows are appended in order. -/
theorem ftsPhase_fresh :
    ∀ (batch : List BatchItem) (d : DB) (w base : Nat),
    (∀ i ∈ ftsIds d, i < base) →
    ftsPhase none d w ((batch.map (fun it => it.raw_text)).zip (idsOf base batch)) =
      Except.ok ⟨d.nextId, d.rows, d.fts ++ ftsOf base batch⟩ := by
  intro batch
  induction batch with
  | nil =>
    intro d w base _
    rw [idsOf]
    unfold ftsPhase
    cases d with
    | mk nid rows fts => simp [ftsOf]
  | cons it rest ih =>
    intro d w base hlt
    rw [idsOf, List.map_cons, List.zip_cons_cons]
    unfold ftsPhase
    rw [if_neg (by simp)]
    have hdup : (d.fts.any (fun e => e.1 == base)) = false := by
      rw [List.any_eq_false]
      intro e he
      have := hlt e.1 (by unfold ftsIds; rw [List.mem_map]; exact ⟨e, he, rfl⟩)
      simp only [beq_iff_eq]
      omega
    rw [if_neg (by simp [hdup])]
    have hlt2 : ∀ i ∈ ftsIds ⟨d.nextId, d.rows, d.fts ++ [(base, it.raw_text)]⟩,
        i < base + 1 := by
      intro i hi
      unfold ftsIds at hi
      simp only [List.map_append, List.mem_append] at hi
      rcases hi with hi | hi
      · exact Nat.lt_succ_of_lt (hlt i hi)
      · simp only [List.map_cons, List.map_nil, List.mem_singleton] at hi
        subst hi
        exact Nat.lt_succ_self _
    have hrec := ih ⟨d.nextId, d.rows, d.fts ++ [(base, it.raw_text)]⟩ (w + 1) (base + 1) hlt2
    rw [hrec]
    rw [ftsOf]
    simp [List.append_assoc]

theorem mem_zip_right :
    ∀ (l1 : List String) (l2 : List Nat), l1.length = l2.length →
    ∀ (b : Nat), b ∈ l2 → ∃ a, (a, b) ∈ l1.zip l2 := by
  intro l1 l2
  induction l2 generalizing l1 with
  | nil => intro _ b hb; cases hb
  | cons b2 rest ih =>
    intro hlen b hb
    cases l1 with
    | nil => simp at hlen
    | cons a1 r1 =>
      rw [List.zip_cons_cons]
      rcases List.mem_cons.mp hb with rfl | hb2
      · exact ⟨a1, List.mem_cons_self _ _⟩
      · obtain ⟨a, ha⟩ := ih r1 (by simpa using hlen) b hb2
        exact ⟨a, List.mem_cons_of_mem _ ha⟩

/-- A batch whose keys are all fresh and pairwise distinct commits in full:
one metadata row per record (merged metadata, consecutive new ids) and one
FTS row per record keyed by the new id. -/
theorem insert_pdf_contents_batch_fresh (db : DB) (batch : List BatchItem)
    (hwf : WF db)
    (hfresh : ∀ it ∈ batch, lookupId db it.zip_path it.pdf_filename = none)
    (hdist : keysDistinct batch) :
    insert_pdf_contents_batch db batch none =
      (⟨db.nextId + batch.length, db.rows ++ rowsOf db.nextId batch,
        db.fts ++ ftsOf db.nextId batch⟩, false) := by
  obtain ⟨hids, hkeys, hfids, hftssub, hrowssub, hlt⟩ := hwf
  have hm := metaPhase_fresh batch db 0 hfresh hdist
  set db1 : DB := ⟨db.nextId + batch.length, db.rows ++ rowsOf db.nextId batch, db.fts⟩
    with hdb1
  have hwfr1 : WFRows db1 := (metaPhase_ok hm).2.2.2.2.1 ⟨hids, hkeys, hlt⟩
  have hids_eq : batch.filterMap (fun it => lookupId db1 it.zip_path it.pdf_filename) =
      idsOf db.nextId batch := by
    apply filterMap_lookup_rowsOf batch db.nextId db1 hwfr1.2.1
    intro r hr
    show r ∈ db.rows ++ rowsOf db.nextId batch
    exact List.mem_append.mpr (Or.inr hr)
  have hlt_fts : ∀ i ∈ ftsIds db1, i < db.nextId := by
    intro i hi
    have : i ∈ ftsIds db := hi
    exact hlt i (hftssub i this)
  have hf2 := ftsPhase_fresh batch db1 (0 + batch.length) db.nextId hlt_fts
  have hpairs : batchPairs db1 batch =
      (batch.map (fun it => it.raw_text)).zip (idsOf db.nextId batch) := by
    unfold batchPairs
    rw [hids_eq]
  rw [insert_pdf_contents_batch_eq_of_phases hm (by rw [hpairs]; exact hf2)]

/-- A batch containing any already-present key is rolled back in full: the
plain FTS5 insert for that record's (pre-existing) rowid raises, the `except`
clause rolls back the whole transaction, and the call returns normally. -/
theorem insert_pdf_contents_batch_present (db : DB) (batch : List BatchItem)
    (hwf : WF db)
    (hpres : ∃ it ∈ batch, (lookupId db it.zip_path it.pdf_filename).isSome) :
    insert_pdf_contents_batch db batch none = (db, false) := by
  rcases insert_pdf_contents_batch_cases db batch none with h | ⟨db1, w, db2, hm, hf2, h⟩
  · exact h
  · exfalso
    obtain ⟨hids, hkeys, hfids, hftssub, hrowssub, hlt⟩ := hwf
    obtain ⟨it, hit, hsome⟩ := hpres
    obtain ⟨hfts1, _, _, hlook, _, hmono⟩ := metaPhase_ok hm
    have hl1 : lookupId db1 it.zip_path it.pdf_filename =
        lookupId db it.zip_path it.pdf_filename := hmono _ _ hsome
    obtain ⟨i, hi⟩ := Option.isSome_iff_exists.mp hsome
    obtain ⟨r, hr, hrid, _, _⟩ := lookupId_mem hi
    have hifts : i ∈ ftsIds db1 := by
      show i ∈ db1.fts.map (fun e => e.1)
      rw [hfts1]
      apply hrowssub
      unfold rowIds
      rw [List.mem_map]
      exact ⟨r, hr, hrid⟩
    have hlen : (batch.filterMap
        (fun it => lookupId db1 it.zip_path it.pdf_filename)).length = batch.length :=
      filterMap_length_of_isSome _ batch hlook
    have hiin : i ∈ batch.filterMap (fun it => lookupId db1 it.zip_path it.pdf_filename) :=
      List.mem_filterMap.mpr ⟨it, hit, by rw [hl1, hi]⟩
    obtain ⟨a, hab⟩ := mem_zip_right (batch.map (fun it => it.raw_text)) _
      (by rw [List.length_map, hlen]) i hiin
    exact ftsPhase_ne_ok ⟨(a, i), hab, hifts⟩ db2 hf2

/-- **C5** (corrected).  For every batch passed to `insert_batch`: each record
has size/pages merged into its metadata before insertion, and — when every
record's key is absent from the store and the batch's keys are pairwise
distinct — each record is inserted into the metadata relation with its text
indexed under the new row's id.  However, a record whose key is already
present is not "silently skipped with the others still inserted": its plain
FTS5 insert raises, and the `except` clause rolls back the ENTIRE batch
(silently — no error to the caller), so a batch containing any already-present
key leaves the store unchanged.  Calling `insert_batch` twice with the
identical single record still leaves exactly one DocumentRecord and one
SearchIndexEntry (the second call is a full, silent rollback). -/
theorem C5_insert_batch_per_record_amended :
    (∀ (db : DB) (batch : List BatchItem), WF db →
      ((∀ it ∈ batch, lookupId db it.zip_path it.pdf_filename = none) →
        keysDistinct batch →
        insert_pdf_contents_batch db batch none =
          (⟨db.nextId + batch.length, db.rows ++ rowsOf db.nextId batch,
            db.fts ++ ftsOf db.nextId batch⟩, false)) ∧
      ((∃ it ∈ batch, (lookupId db it.zip_path it.pdf_filename).isSome) →
        insert_pdf_contents_batch db batch none = (db, false))) ∧
    (∀ it : BatchItem,
      (insert_pdf_contents_batch
        (insert_pdf_contents_batch emptyDB [it] none).1 [it] none).1.rows.length = 1 ∧
      (insert_pdf_contents_batch
        (insert_pdf_contents_batch emptyDB [it] none).1 [it] none).1.fts.length = 1) := by
  constructor
  · intro db batch hwf
    exact ⟨fun hfresh hdist => insert_pdf_contents_batch_fresh db batch hwf hfresh hdist,
           fun hpres => insert_pdf_contents_batch_present db batch hwf hpres⟩
  · intro it
    have hfresh : ∀ it2 ∈ [it], lookupId emptyDB it2.zip_path it2.pdf_filename = none := by
      intro it2 _; rfl
    have hdist : keysDistinct [it] := by simp [keysDistinct]
    have h1 := insert_pdf_contents_batch_fresh emptyDB [it] WF_emptyDB hfresh hdist
    have hd1 : (insert_pdf_contents_batch emptyDB [it] none).1 =
        ⟨2, rowsOf 1 [it], ftsOf 1 [it]⟩ := by
      rw [h1]
      rfl
    have hwf1 : WF (insert_pdf_contents_batch emptyDB [it] none).1 :=
      insert_pdf_contents_batch_wf emptyDB [it] none WF_emptyDB
    have hpres : ∃ it2 ∈ [it],
        (lookupId (insert_pdf_contents_batch emptyDB [it] none).1
          it2.zip_path it2.pdf_filename).isSome := by
      refine ⟨it, List.mem_cons_self _ _, ?_⟩
      rw [hd1]
      unfold lookupId rowsOf rowsOf
      rw [List.find?_cons_of_pos _ (by simp)]
      rfl
    have h2 := insert_pdf_contents_batch_present _ [it] hwf1 hpres
    rw [h2, hd1]
    constructor
    · rw [rowsOf, rowsOf]; rfl
    · rw [ftsOf, ftsOf]; rfl

/-- **C5** counterexample.  A store holding key `("b.zip","q.pdf")`; a batch
of two records, the first with the fresh key `("a.zip","p.pdf")`, the second
with the already-present key.  The claim says the fresh record is inserted and
the present one silently skipped; the code rolls the whole batch back: the
store is unchanged and the fresh key is still absent afterwards. -/
theorem C5_counterexample :
    insert_pdf_contents_batch
      ⟨2, [⟨1, "b.zip", "q.pdf", []⟩], [(1, "beta")]⟩
      [⟨"a.zip", "p.pdf", "alpha", [], none, none⟩,
       ⟨"b.zip", "q.pdf", "beta", [], none, none⟩] none =
      (⟨2, [⟨1, "b.zip", "q.pdf", []⟩], [(1, "beta")]⟩, false) ∧
    lookupId (insert_pdf_contents_batch
      ⟨2, [⟨1, "b.zip", "q.pdf", []⟩], [(1, "beta")]⟩
      [⟨"a.zip", "p.pdf", "alpha", [], none, none⟩,
       ⟨"b.zip", "q.pdf", "beta", [], none, none⟩] none).1 "a.zip" "p.pdf" = none := by
  constructor
  · rfl
  · rfl

/-- **C5** witness: the amended theorem applied at a concrete store and batch
(the counterexample store with a fully-fresh distinct two-record batch), every
hypothesis discharged by evaluation. -/
theorem C5_witness :
    insert_pdf_contents_batch
      ⟨2, [⟨1, "b.zip", "q.pdf", []⟩], [(1, "beta")]⟩
      [⟨"a.zip", "p.pdf", "alpha", [], some 7, some 2⟩] none =
      (⟨3, [⟨1, "b.zip", "q.pdf", []⟩,
            ⟨2, "a.zip", "p.pdf", [("file_size", MVal.n 7), ("pages_count", MVal.n 2)]⟩],
        [(1, "beta"), (2, "alpha")]⟩, false) := by
  have h := (C5_insert_batch_per_record_amended.1
    ⟨2, [⟨1, "b.zip", "q.pdf", []⟩], [(1, "beta")]⟩
    [⟨"a.zip", "p.pdf", "alpha", [], some 7, some 2⟩]
    (by unfold WF rowIds rowKeys ftsIds; decide)).1 (by decide)
    (by unfold keysDistinct; decide)
  rw [h]
  rfl

/-! ## C6: `insert_pdf_content` (insert_one) -/

/-- **C6** (corrected).  `insert_one` with an already-present key leaves the
metadata row untouched but does NOT leave the search-index entry untouched:
its `INSERT OR REPLACE` replaces the index row's content with the new text.
With a fresh key it creates the metadata row (merged metadata, new id) plus
the index entry.  In both cases the Python function returns `None` — there is
no created/already-existed boolean (the model's second component is the
raised-exception flag, `false` on these paths). -/
theorem C6_insert_one_amended (db : DB) (z p t : String) (m : Metadata)
    (fs pc : Option Nat) (hwf : WF db) :
    (∀ rid, lookupId db z p = some rid →
      insert_pdf_content db z p t m fs pc none =
        ({ db with fts := db.fts.filter (fun e => e.1 != rid) ++ [(rid, t)] }, false)) ∧
    (lookupId db z p = none →
      insert_pdf_content db z p t m fs pc none =
        (⟨db.nextId + 1,
          db.rows ++ [⟨db.nextId, z, p, mergeSizePages m fs pc⟩],
          db.fts ++ [(db.nextId, t)]⟩, false)) := by
  obtain ⟨hids, hkeys, hfids, hftssub, hrowssub, hlt⟩ := hwf
  constructor
  · intro rid hl
    have hins : insertOrIgnoreMeta db z p (mergeSizePages m fs pc) = db := by
      unfold insertOrIgnoreMeta
      rw [if_pos (by rw [hl]; rfl)]
    unfold insert_pdf_content
    rw [if_neg (by simp), hins, hl]
    show (if (none : Option Nat) = some 1 then (db, true)
      else ({ db with fts := db.fts.filter (fun e => e.1 != rid) ++ [(rid, t)] }, false)) = _
    rw [if_neg (by simp)]
  · intro hl
    have hins : insertOrIgnoreMeta db z p (mergeSizePages m fs pc) =
        ⟨db.nextId + 1,
         db.rows ++ [⟨db.nextId, z, p, mergeSizePages m fs pc⟩], db.fts⟩ := by
      unfold insertOrIgnoreMeta
      rw [if_neg (by rw [hl]; simp)]
    have hlk := insertOrIgnoreMeta_lookup_fresh (mergeSizePages m fs pc) hl
    unfold insert_pdf_content
    rw [if_neg (by simp), hlk, hins]
    show (if (none : Option Nat) = some 1 then (db, true)
      else (⟨db.nextId + 1,
        db.rows ++ [⟨db.nextId, z, p, mergeSizePages m fs pc⟩],
        db.fts.filter (fun e => e.1 != db.nextId) ++ [(db.nextId, t)]⟩, false)) = _
    rw [if_neg (by simp)]
    have hfilter : db.fts.filter (fun e => e.1 != db.nextId) = db.fts := by
      rw [List.filter_eq_self]
      intro e he
      have hmem : e.1 ∈ ftsIds db := by
        unfold ftsIds
        rw [List.mem_map]
        exact ⟨e, he, rfl⟩
      have := hlt e.1 (hftssub e.1 hmem)
      simp only [bne_iff_ne, ne_eq]
      omega
    rw [hfilter]

/-- **C6** counterexample.  A store whose only record `("a.zip","p.pdf")` has
index content `"old"`; `insert_one` with the same key and text `"new"` does
not leave the index entry untouched — afterwards the entry's content is
`"new"` — refuting the claimed no-op. -/
theorem C6_counterexample :
    (insert_pdf_content ⟨2, [⟨1, "a.zip", "p.pdf", []⟩], [(1, "old")]⟩
      "a.zip" "p.pdf" "new" [] none none none).1.fts = [(1, "new")] ∧
    ([(1, "new")] : List (Nat × String)) ≠ [(1, "old")] := by
  constructor
  · rfl
  · decide

/-- **C6** witness: the amended theorem at a concrete store with the key
already present — the metadata row survives and the index content is
replaced. -/
theorem C6_witness :
    insert_pdf_content ⟨2, [⟨1, "a.zip", "p.pdf", []⟩], [(1, "old")]⟩
      "a.zip" "p.pdf" "new" [] none none none =
      (⟨2, [⟨1, "a.zip", "p.pdf", []⟩], [(1, "new")]⟩, false) := by
  have h := (C6_insert_one_amended ⟨2, [⟨1, "a.zip", "p.pdf", []⟩], [(1, "old")]⟩
      "a.zip" "p.pdf" "new" [] none none
      (by unfold WF rowIds rowKeys ftsIds; decide)).1 1 (by decide)
  rw [h]
  rfl

/-! ## Extraction wrapper and ingestion pipeline (`filling_db.py`)

`extract_pdf_text_from_zip` wraps the ZIP lookup and the PyPDF2 read in a
catch-all `try`.  The external backend is modelled as an `Except`: `ok` carries the
in-archive file size and the per-page `extract_text()` results, `error`
carries the exception's message.  The wrapper never raises: its catch-all
`except` turns any failure into a returned triple. -/

/-- Python's string whitespace predicate (`str.isspace` on a single character,
the set that no-argument `str.strip()` / `str.split()` remove).  Checked
against CPython 3.11: exactly the code points U+0009–U+000D, U+001C–U+001F,
U+0020, U+0085, U+00A0, U+1680, U+2000–U+200A, U+2028, U+2029, U+202F,
U+205F and U+3000 satisfy `chr(cp).isspace()`. -/
def isPyWs (c : Char) : Bool :=
  (0x09 ≤ c.toNat && c.toNat ≤ 0x0d) || c.toNat == 0x20 ||
  (0x1c ≤ c.toNat && c.toNat ≤ 0x1f) || c.toNat == 0x85 || c.toNat == 0xa0 ||
  c.toNat == 0x1680 || (0x2000 ≤ c.toNat && c.toNat ≤ 0x200a) ||
  c.toNat == 0x2028 || c.toNat == 0x2029 || c.toNat == 0x202f ||
  c.toNat == 0x205f || c.toNat == 0x3000

/-- Python `str.split()` with no separator: split on whitespace runs,
dropping empty fields. -/
def pySplit (l : List Char) : List (List Char) :=
  let acc := l.foldr
    (fun c acc =>
      if isPyWs c then
        if acc.2.isEmpty then (acc.1, ([] : List Char))
        else (acc.2 :: acc.1, [])
      else (acc.1, c :: acc.2))
    (([] : List (List Char)), ([] : List Char))
  if acc.2.isEmpty then acc.1 else acc.2 :: acc.1

/-- `' '.join(full_text.split())` — whitespace normalisation. -/
def pyWsJoin (s : String) : String := ⟨List.intercalate [' '] (pySplit s.data)⟩

/-- What the `try` body of `extract_pdf_text_from_zip` reads from the archive:
the compressed member's size and the `page.extract_text()` result for each
page of the PDF. -/
structure PdfData where
  file_size : Nat
  page_texts : List String
deriving DecidableEq, Repr

/-- `extract_pdf_text_from_zip` (filling_db.py:51-95).  On success: clean each
of the first `max_pages` page texts, concatenate, normalise whitespace,
truncate to `max_chars` code points, and return the text with the file size
and the full page count.  On any failure: return the sanitized human-readable
message as the text, with `None` for both size and page count. -/
def extract_pdf_text_from_zip (input : Except String PdfData)
    (pdf_filename : String) (max_pages max_chars : Nat) :
    String × Option Nat × Option Nat :=
  match input with
  | Except.ok d =>
    let full_text := String.join ((d.page_texts.take max_pages).map cleanS)
    let cleaned_text := pyWsJoin full_text
    let truncated_text : String := ⟨cleaned_text.data.take max_chars⟩
    (truncated_text, some d.file_size, some d.page_texts.length)
  | Except.error e =>
    (cleanS ("Error extracting text from " ++ pdf_filename ++ ": " ++ e), none, none)

/-- **C10** (confirmed).  The extraction wrapper is total — every input yields
a returned triple, never an exception (the catch-all `except` is embedded as a
total function).  On failure the text component is the human-readable error
message and both size and page count are `None`; on success both are `Some`,
so a caller distinguishes failure from success exactly by the `None`-ness of
size/page-count, never by a `None` text. -/
theorem C10_extract_total (pdf_filename : String) (max_pages max_chars : Nat) :
    (∀ e, extract_pdf_text_from_zip (Except.error e) pdf_filename max_pages max_chars =
      (cleanS ("Error extracting text from " ++ pdf_filename ++ ": " ++ e), none, none)) ∧
    (∀ d, (extract_pdf_text_from_zip (Except.ok d) pdf_filename max_pages max_chars).2.1 =
        some d.file_size ∧
      (extract_pdf_text_from_zip (Except.ok d) pdf_filename max_pages max_chars).2.2 =
        some d.page_texts.length) :=
  ⟨fun _ => rfl, fun _ => ⟨rfl, rfl⟩⟩

/-- An (already URL-unquoted) document inside an archive together with what
the extraction backend sees for it.  `urllib.parse.unquote` is a pure
renaming applied before any name is compared or stored; the model works with
the unquoted names throughout. -/
structure SrcDoc where
  name : String
  data : Except String PdfData
deriving Repr

/-- One ZIP archive as the Source collaborator yields it: its full path (used
in Error Ledger writes), its path relative to the root directory (used as the
container key), an optional open failure, and its `.pdf` members in archive
order. -/
structure SrcZip where
  zip_path : String
  rel_path : String
  openErr : Option String
  docs : List SrcDoc
deriving Repr

structure LedgerEntry where
  zip_path : String
  pdf_filename : String
  error : String
deriving DecidableEq, Repr

/-- The mutable state of `process_zip_archives_to_sqlite`: the store, the
pending batch, the Error Ledger file contents appended so far, the resume
marker (`last_processed_pdf`), the positional counter (`entity_count`), and —
as a pure observation for the resume claims — the `(rel_path, name)` of every
document that reached extraction. -/
structure PState where
  db : DB
  batch : List BatchItem
  ledger : List LedgerEntry
  last_processed_pdf : Option String
  entity_count : Option Nat
  processed : List (String × String)
deriving DecidableEq, Repr

/-- The body of the per-document loop (filling_db.py:155-183).  The
`except`-clause that would append `(zip_path, pdf_filename)` to the Error
Ledger is unreachable here: nothing in the body raises —
`extract_pdf_text_from_zip` is total (C10) and `insert_pdf_contents_batch`
swallows storage errors (C3). -/
def processDoc (root : String) (batch_size : Nat) (z : SrcZip)
    (s : PState) (d : SrcDoc) : PState :=
  match s.last_processed_pdf with
  | some m =>
    if d.name = m then { s with last_processed_pdf := none }
    else s
  | none =>
    let ex := extract_pdf_text_from_zip d.data d.name 10 10000
    let raw_text := ex.1
    let clean_raw_text := if raw_text ≠ "" then cleanS raw_text else raw_text
    let item : BatchItem :=
      ⟨cleanS z.rel_path, cleanS d.name, clean_raw_text,
       [("root_directory", MVal.s root)], ex.2.1, ex.2.2⟩
    let batch := s.batch ++ [item]
    let s2 := { s with batch := batch, processed := s.processed ++ [(z.rel_path, d.name)] }
    if batch_size ≤ batch.length then
      { s2 with db := (insert_pdf_contents_batch s2.db batch none).1, batch := [] }
    else s2

/-- The per-archive step (filling_db.py:137-187): a failed archive open is
appended to the Error Ledger (with an empty document name); an archive wholly
"behind" the positional counter (`entity_count > total_pdfs`) is skipped with
the counter decremented; otherwise its documents are walked. -/
def processZip (root : String) (batch_size : Nat) (s : PState) (z : SrcZip) : PState :=
  match z.openErr with
  | some e => { s with ledger := s.ledger ++ [⟨z.zip_path, "", e⟩] }
  | none =>
    let total_pdfs := z.docs.length
    match s.entity_count with
    | some n =>
      if total_pdfs < n then { s with entity_count := some (n - total_pdfs) }
      else z.docs.foldl (processDoc root batch_size z) s
    | none => z.docs.foldl (processDoc root batch_size z) s

/-- `process_zip_archives_to_sqlite` (filling_db.py:110-199): read the
checkpoint from `get_last_entry`, walk the archives, and flush the final
partial batch. -/
def process_zip_archives_to_sqlite (db0 : DB) (root : String)
    (zips : List SrcZip) (batch_size : Nat) : PState :=
  let last_entry := get_last_entry db0
  let s0 : PState :=
    ⟨db0, [], [], last_entry.map (fun e => e.2), last_entry.map (fun e => e.1), []⟩
  let s := zips.foldl (processZip root batch_size) s0
  if s.batch.isEmpty then s
  else { s with db := (insert_pdf_contents_batch s.db s.batch none).1, batch := [] }

/-- **C1** (code_bug).  Failing input: one archive, one document whose
extraction fails with message `"boom"`, fresh store, no resume state.  The
claim (and the spec) say the failure is appended to the Error Ledger and the
document is not committed.  The code instead commits the document — with the
error message as its indexed text — and appends nothing to the ledger: the
extraction wrapper returns the message as the text instead of raising, so the
per-document `except`/`write_to_file` path never fires for extraction
failures. -/
theorem C1_extraction_failure_committed :
    (process_zip_archives_to_sqlite emptyDB "r"
      [⟨"r/a.zip", "a.zip", none, [⟨"bad.pdf", Except.error "boom"⟩]⟩] 10).ledger = [] ∧
    lookupId (process_zip_archives_to_sqlite emptyDB "r"
      [⟨"r/a.zip", "a.zip", none, [⟨"bad.pdf", Except.error "boom"⟩]⟩] 10).db
      "a.zip" "bad.pdf" = some 1 ∧
    (process_zip_archives_to_sqlite emptyDB "r"
      [⟨"r/a.zip", "a.zip", none, [⟨"bad.pdf", Except.error "boom"⟩]⟩] 10).db.fts =
      [(1, "Error extracting text from bad.pdf: boom")] := by
  refine ⟨rfl, rfl, rfl⟩

/-- **C2** counterexample.  An unchanged two-archive source tree
(`A.zip` = `d1,d2,d3`; `B.zip` = `e1`), prior run completed through `d3`
(last row id 3, name `d3`).  The fresh run clears the marker at `d3` but the
positional counter is never cleared: `B.zip` (1 document < counter 3) is
skipped whole, so `e1` — a document strictly after D — is never processed,
refuting "processes every document after D exactly once". -/
theorem C2_counterexample :
    (process_zip_archives_to_sqlite
      ⟨4, [⟨1, "A.zip", "d1", []⟩, ⟨2, "A.zip", "d2", []⟩, ⟨3, "A.zip", "d3", []⟩],
        [(1, "x"), (2, "y"), (3, "z")]⟩
      "r"
      [⟨"r/A.zip", "A.zip", none,
         [⟨"d1", Except.ok ⟨5, ["t"]⟩⟩, ⟨"d2", Except.ok ⟨5, ["t"]⟩⟩,
          ⟨"d3", Except.ok ⟨5, ["t"]⟩⟩]⟩,
       ⟨"r/B.zip", "B.zip", none, [⟨"e1", Except.ok ⟨5, ["t"]⟩⟩]⟩] 10).processed = [] ∧
    ([] : List (String × String)) ≠ [("B.zip", "e1")] := by
  refine ⟨rfl, by decide⟩

/-! ## C2: resume behaviour -/

theorem processDoc_skip {root : String} {bs : Nat} {z : SrcZip} {s : PState}
    {d : SrcDoc} {m : String} (hm : s.last_processed_pdf = some m)
    (hne : d.name ≠ m) : processDoc root bs z s d = s := by
  unfold processDoc
  rw [hm]
  show (if d.name = m then { s with last_processed_pdf := none } else s) = s
  rw [if_neg hne]

theorem processDoc_match {root : String} {bs : Nat} {z : SrcZip} {s : PState}
    {d : SrcDoc} {m : String} (hm : s.last_processed_pdf = some m)
    (heq : d.name = m) :
    processDoc root bs z s d = { s with last_processed_pdf := none } := by
  unfold processDoc
  rw [hm]
  show (if d.name = m then { s with last_processed_pdf := none } else s) = _
  rw [if_pos heq]

theorem foldl_processDoc_skip {root : String} {bs : Nat} {z : SrcZip} :
    ∀ (docs : List SrcDoc) (s : PState) (m : String),
    s.last_processed_pdf = some m → (∀ d ∈ docs, d.name ≠ m) →
    docs.foldl (processDoc root bs z) s = s := by
  intro docs
  induction docs with
  | nil => intro s m _ _; rfl
  | cons d rest ih =>
    intro s m hm hne
    rw [List.foldl_cons, processDoc_skip hm (hne d (List.mem_cons_self _ _))]
    exact ih s m hm (fun d2 hd2 => hne d2 (List.mem_cons_of_mem _ hd2))

theorem processDoc_none (root : String) (bs : Nat) (z : SrcZip) (s : PState)
    (d : SrcDoc) (hm : s.last_processed_pdf = none) :
    (processDoc root bs z s d).processed = s.processed ++ [(z.rel_path, d.name)] ∧
    (processDoc root bs z s d).last_processed_pdf = none ∧
    (processDoc root bs z s d).entity_count = s.entity_count := by
  unfold processDoc
  rw [hm]
  refine ⟨?_, ?_, ?_⟩ <;> (dsimp only; split <;> (first | rfl | (split <;> rfl)))

theorem foldl_processDoc_none {root : String} {bs : Nat} {z : SrcZip} :
    ∀ (docs : List SrcDoc) (s : PState), s.last_processed_pdf = none →
    (docs.foldl (processDoc root bs z) s).processed =
      s.processed ++ docs.map (fun d => (z.rel_path, d.name)) ∧
    (docs.foldl (processDoc root bs z) s).last_processed_pdf = none ∧
    (docs.foldl (processDoc root bs z) s).entity_count = s.entity_count := by
  intro docs
  induction docs with
  | nil => intro s hm; exact ⟨by simp, hm, rfl⟩
  | cons d rest ih =>
    intro s hm
    obtain ⟨hp, hl, hc⟩ := processDoc_none root bs z s d hm
    rw [List.foldl_cons]
    obtain ⟨hp2, hl2, hc2⟩ := ih (processDoc root bs z s d) hl
    refine ⟨?_, hl2, by rw [hc2, hc]⟩
    rw [hp2, hp, List.map_cons, List.append_assoc, List.singleton_append]

theorem processZip_walk (root : String) (bs : Nat) (z : SrcZip) (s : PState) (j : Nat)
    (hopen : z.openErr = none) (hm : s.last_processed_pdf = none)
    (hc : s.entity_count = some j) (hj : j ≤ z.docs.length) :
    (processZip root bs s z).processed =
      s.processed ++ z.docs.map (fun d => (z.rel_path, d.name)) ∧
    (processZip root bs s z).last_processed_pdf = none ∧
    (processZip root bs s z).entity_count = some j := by
  unfold processZip
  rw [hopen, hc]
  show ((if z.docs.length < j then { s with entity_count := some (j - z.docs.length) }
      else z.docs.foldl (processDoc root bs z) s).processed =
        s.processed ++ z.docs.map (fun d => (z.rel_path, d.name))) ∧
    ((if z.docs.length < j then { s with entity_count := some (j - z.docs.length) }
      else z.docs.foldl (processDoc root bs z) s).last_processed_pdf = none) ∧
    ((if z.docs.length < j then { s with entity_count := some (j - z.docs.length) }
      else z.docs.foldl (processDoc root bs z) s).entity_count = some j)
  rw [if_neg (by omega)]
  obtain ⟨hp, hl, hcount⟩ := foldl_processDoc_none z.docs s hm
  exact ⟨hp, hl, by rw [hcount, hc]⟩

theorem foldl_processZip_post (root : String) (bs : Nat) :
    ∀ (zips : List SrcZip) (s : PState) (j : Nat),
    s.last_processed_pdf = none → s.entity_count = some j →
    (∀ z ∈ zips, z.openErr = none ∧ j ≤ z.docs.length) →
    (zips.foldl (processZip root bs) s).processed =
      s.processed ++
        (zips.map (fun z => z.docs.map (fun d => (z.rel_path, d.name)))).flatten ∧
    (zips.foldl (processZip root bs) s).last_processed_pdf = none ∧
    (zips.foldl (processZip root bs) s).entity_count = some j := by
  intro zips
  induction zips with
  | nil => intro s j hm hc _; exact ⟨by simp, hm, hc⟩
  | cons z rest ih =>
    intro s j hm hc hall
    obtain ⟨hz1, hz2⟩ := hall z (List.mem_cons_self _ _)
    obtain ⟨hp, hl, hcount⟩ := processZip_walk root bs z s j hz1 hm hc hz2
    rw [List.foldl_cons]
    obtain ⟨hp2, hl2, hc2⟩ := ih (processZip root bs s z) j hl hcount
      (fun z2 hz => hall z2 (List.mem_cons_of_mem _ hz))
    refine ⟨?_, hl2, hc2⟩
    rw [hp2, hp, List.map_cons, List.flatten_cons, List.append_assoc]

theorem foldl_processZip_pre (root : String) (bs : Nat) :
    ∀ (pre : List SrcZip) (s : PState) (c : Nat),
    1 ≤ c → (∀ z ∈ pre, z.openErr = none) →
    s.entity_count = some ((pre.map (fun z => z.docs.length)).sum + c) →
    pre.foldl (processZip root bs) s = { s with entity_count := some c } := by
  intro pre
  induction pre with
  | nil =>
    intro s c _ _ hc
    rw [List.foldl_nil]
    rw [List.map_nil, List.sum_nil, Nat.zero_add] at hc
    cases s with
    | mk db batch ledger last count processed =>
      simp only at hc
      rw [hc]
  | cons z rest ih =>
    intro s c hc1 hopen hc
    rw [List.foldl_cons]
    have hz : z.openErr = none := hopen z (List.mem_cons_self _ _)
    rw [List.map_cons, List.sum_cons] at hc
    have hstep : processZip root bs s z =
        { s with
            entity_count := some ((rest.map (fun z => z.docs.length)).sum + c) } := by
      unfold processZip
      rw [hz, hc]
      show (if z.docs.length < z.docs.length + (rest.map (fun z => z.docs.length)).sum + c
        then { s with
          entity_count :=
            some (z.docs.length + (rest.map (fun z => z.docs.length)).sum + c - z.docs.length) }
        else z.docs.foldl (processDoc root bs z) s) = _
      rw [if_pos (by omega)]
      have harith : z.docs.length + (rest.map (fun z => z.docs.length)).sum + c
          - z.docs.length = (rest.map (fun z => z.docs.length)).sum + c := by omega
      rw [harith]
    rw [hstep]
    rw [ih { s with
        entity_count := some ((rest.map (fun z => z.docs.length)).sum + c) } c hc1
      (fun z2 hz2 => hopen z2 (List.mem_cons_of_mem _ hz2)) rfl]

/-- **C2** (corrected).  Resume over an unchanged tree: with the prior run's
last row D (the `before.length + 1`-st document of its container `ck`, row id
= documents preceding it in enumeration order + its position), a fresh run
processes zero documents before D, skips D itself (clearing the marker on the
exact-name match, provided the marker name does not occur earlier in D's
container), and processes every document after D exactly once — PROVIDED every
container after D's has at least `before.length + 1` documents: the positional
counter `entity_count` is never cleared when the marker matches, so any later
container with fewer documents than D's position in its own container is
skipped whole. -/
theorem C2_resume_amended (root : String) (bs : Nat) (db0 : DB)
    (pre post : List SrcZip) (ck : SrcZip)
    (before after : List SrcDoc) (D : SrcDoc)
    (hdocs : ck.docs = before ++ D :: after)
    (hopen : ∀ z ∈ pre ++ ck :: post, z.openErr = none)
    (hlast : get_last_entry db0 =
      some ((pre.map (fun z => z.docs.length)).sum + (before.length + 1), D.name))
    (hbefore : ∀ d ∈ before, d.name ≠ D.name)
    (hpost : ∀ z ∈ post, before.length + 1 ≤ z.docs.length) :
    (process_zip_archives_to_sqlite db0 root (pre ++ ck :: post) bs).processed =
      after.map (fun d => (ck.rel_path, d.name)) ++
      (post.map (fun z => z.docs.map (fun d => (z.rel_path, d.name)))).flatten := by
  have hck_open : ck.openErr = none :=
    hopen ck (List.mem_append.mpr (Or.inr (List.mem_cons_self _ _)))
  have hpre_open : ∀ z ∈ pre, z.openErr = none :=
    fun z hz => hopen z (List.mem_append.mpr (Or.inl hz))
  have hpost_all : ∀ z ∈ post, z.openErr = none ∧ before.length + 1 ≤ z.docs.length :=
    fun z hz =>
      ⟨hopen z (List.mem_append.mpr (Or.inr (List.mem_cons_of_mem _ hz))), hpost z hz⟩
  have hproc : (process_zip_archives_to_sqlite db0 root (pre ++ ck :: post) bs).processed =
      ((pre ++ ck :: post).foldl (processZip root bs)
        ⟨db0, [], [], (get_last_entry db0).map (fun e => e.2),
         (get_last_entry db0).map (fun e => e.1), []⟩).processed := by
    unfold process_zip_archives_to_sqlite
    dsimp only
    split <;> rfl
  rw [hproc, hlast]
  have hs0 : (⟨db0, [], [],
      (some ((pre.map (fun z => z.docs.length)).sum + (before.length + 1),
        D.name)).map (fun e => e.2),
      (some ((pre.map (fun z => z.docs.length)).sum + (before.length + 1),
        D.name)).map (fun e => e.1), []⟩ : PState) =
      ⟨db0, [], [], some D.name,
        some ((pre.map (fun z => z.docs.length)).sum + (before.length + 1)), []⟩ := rfl
  rw [hs0, List.foldl_append]
  rw [foldl_processZip_pre root bs pre
    ⟨db0, [], [], some D.name,
      some ((pre.map (fun z => z.docs.length)).sum + (before.length + 1)), []⟩
    (before.length + 1) (by omega) hpre_open rfl]
  have hs1 : ({ (⟨db0, [], [], some D.name,
      some ((pre.map (fun z => z.docs.length)).sum + (before.length + 1)), []⟩ : PState)
      with entity_count := some (before.length + 1) }) =
      (⟨db0, [], [], some D.name, some (before.length + 1), []⟩ : PState) := rfl
  rw [hs1, List.foldl_cons]
  have hck : processZip root bs ⟨db0, [], [], some D.name, some (before.length + 1), []⟩ ck =
      after.foldl (processDoc root bs ck)
        (⟨db0, [], [], none, some (before.length + 1), []⟩ : PState) := by
    unfold processZip
    rw [hck_open]
    show (if ck.docs.length < before.length + 1
      then { (⟨db0, [], [], some D.name, some (before.length + 1), []⟩ : PState) with
        entity_count := some (before.length + 1 - ck.docs.length) }
      else ck.docs.foldl (processDoc root bs ck)
        ⟨db0, [], [], some D.name, some (before.length + 1), []⟩) = _
    rw [if_neg (by rw [hdocs]; rw [List.length_append, List.length_cons]; omega)]
    rw [hdocs, List.foldl_append, List.foldl_cons]
    rw [foldl_processDoc_skip before _ D.name rfl hbefore]
    rw [processDoc_match rfl rfl]
  rw [hck]
  obtain ⟨hpA, hlA, hcA⟩ := foldl_processDoc_none after
    (⟨db0, [], [], none, some (before.length + 1), []⟩ : PState) rfl
  obtain ⟨hpP, _, _⟩ := foldl_processZip_post root bs post
    (after.foldl (processDoc root bs ck)
      (⟨db0, [], [], none, some (before.length + 1), []⟩ : PState))
    (before.length + 1) hlA (by rw [hcA]) hpost_all
  rw [hpP, hpA]
  simp

/-- **C2** witness: the amended theorem at a concrete two-archive tree whose
second archive is large enough (1 document, D at position 1): both remaining
documents are processed exactly once. -/
theorem C2_witness :
    (process_zip_archives_to_sqlite ⟨2, [⟨1, "A.zip", "d1", []⟩], [(1, "x")]⟩ "r"
      [⟨"r/A.zip", "A.zip", none,
         [⟨"d1", Except.ok ⟨5, ["t"]⟩⟩, ⟨"d2", Except.ok ⟨5, ["t"]⟩⟩]⟩,
       ⟨"r/B.zip", "B.zip", none, [⟨"e1", Except.ok ⟨5, ["t"]⟩⟩]⟩] 10).processed =
      [("A.zip", "d2"), ("B.zip", "e1")] := by
  have h := C2_resume_amended "r" 10 ⟨2, [⟨1, "A.zip", "d1", []⟩], [(1, "x")]⟩
    [] [⟨"r/B.zip", "B.zip", none, [⟨"e1", Except.ok ⟨5, ["t"]⟩⟩]⟩]
    ⟨"r/A.zip", "A.zip", none,
      [⟨"d1", Except.ok ⟨5, ["t"]⟩⟩, ⟨"d2", Except.ok ⟨5, ["t"]⟩⟩]⟩
    [] [⟨"d2", Except.ok ⟨5, ["t"]⟩⟩] ⟨"d1", Except.ok ⟨5, ["t"]⟩⟩
    rfl
    (by intro z hz; rcases List.mem_cons.mp hz with rfl | hz2
        · rfl
        · rcases List.mem_cons.mp hz2 with rfl | hz3
          · rfl
          · cases hz3)
    rfl
    (by intro d hd; cases hd)
    (by intro z hz; rcases List.mem_cons.mp hz with rfl | hz2
        · decide
        · cases hz2)
  simp only [List.nil_append] at h
  rw [h]
  rfl

/-! ## Retry Pipeline (`retry_failed_pdfs.py`)

External collaborators of the retry pipeline: `os.path.exists`, the
extraction backend's view of each `(zip, pdf)`, and `os.path.relpath`. -/

structure RetryEnv where
  zip_exists : String → Bool
  extract_input : String → String → Except String PdfData
  relpath : String → String → String

/-- `retry_failed_pdf` (retry_failed_pdfs.py:65-122).  The `raw_text is None`
check of the source is unreachable — the extraction wrapper always returns a
string (C10) — so it has no counterpart here.  The surrounding `try/except`
returns `False` if `insert_pdf_content` re-raises (modelled through the raised
flag; no engine failure is simulated on this path). -/
def retry_failed_pdf (env : RetryEnv) (zip_path pdf_filename : String)
    (db : DB) (root_directory : String) : Bool × DB :=
  if env.zip_exists zip_path = false then (false, db)
  else
    let ex := extract_pdf_text_from_zip (env.extract_input zip_path pdf_filename)
      pdf_filename 10 10000
    let raw_text := ex.1
    let clean_raw_text := if raw_text ≠ "" then cleanS raw_text else raw_text
    let clean_pdf_filename := cleanS pdf_filename
    let clean_relative_zip_path := cleanS (env.relpath zip_path root_directory)
    let metadata := [("root_directory", MVal.s root_directory), ("retry", MVal.b true)]
    if pdf_exists db clean_relative_zip_path clean_pdf_filename then (true, db)
    else
      let res := insert_pdf_content db clean_relative_zip_path clean_pdf_filename
        clean_raw_text metadata ex.2.1 ex.2.2 none
      if res.2 then (false, res.1) else (true, res.1)

/-- The retry loop of `main` (retry_failed_pdfs.py:199-225): drive each parsed
triple through `retry_failed_pdf`, counting successes and collecting the
still-failing triples (with their original error messages) for the new Error
Ledger. -/
def retry_main (env : RetryEnv) (failed_files : List LedgerEntry) (db : DB)
    (root_directory : String) : DB × Nat × List LedgerEntry :=
  failed_files.foldl
    (fun acc t =>
      let r := retry_failed_pdf env t.zip_path t.pdf_filename acc.1 root_directory
      if r.1 then (r.2, acc.2.1 + 1, acc.2.2)
      else (r.2, acc.2.1, acc.2.2 ++ [t]))
    (db, 0, [])

/-- **C7** (code_bug).  Failing input: one ledger triple `("z.zip", "p.pdf",
"orig err")` whose archive still exists but whose extraction still fails
(message `"boom"`).  The claim says such a triple is recorded as
still-failing with its original error preserved.  The code instead counts it
as a success: the extraction wrapper returns the error message as the text
(never `None`, so the dead `raw_text is None` guard cannot fire), the message
is inserted into the store as the document's content, and the new Error
Ledger comes out empty. -/
theorem C7_extraction_failure_counts_success :
    retry_main ⟨fun _ => true, fun _ _ => Except.error "boom", fun z _ => z⟩
      [⟨"z.zip", "p.pdf", "orig err"⟩] emptyDB "r" =
      (⟨2, [⟨1, "z.zip", "p.pdf",
          [("root_directory", MVal.s "r"), ("retry", MVal.b true)]⟩],
        [(1, "Error extracting text from p.pdf: boom")]⟩, 1, []) := by
  rfl

/-! ## Error Ledger serialization and parsing (C8)

`write_to_file` (filling_db.py:98-107) appends one three-line block plus a
blank line per call; `parse_error_file` (retry_failed_pdfs.py:16-62) reads the
file back.  File contents are modelled as `List Char` (one element per code
point); Python's `str.strip` / `.split('\n\n')` / `.split('\n')` /
`.startswith` / slicing are implemented below with matching semantics. -/

/-- `str.strip()`: drop leading and trailing whitespace. -/
def stripRight (l : List Char) : List Char := (l.reverse.dropWhile isPyWs).reverse

def pyStrip (l : List Char) : List Char := stripRight (l.dropWhile isPyWs)

/-- `content.split('\n\n')`: leftmost, non-overlapping. -/
def splitOnNN : List Char → List (List Char)
  | [] => [[]]
  | [c] => [[c]]
  | c1 :: c2 :: rest =>
    if c1 = '\n' ∧ c2 = '\n' then [] :: splitOnNN rest
    else
      match splitOnNN (c2 :: rest) with
      | [] => [[c1]]
      | g :: gs => (c1 :: g) :: gs

/-- `block.split('\n')`. -/
def splitOnNl : List Char → List (List Char)
  | [] => [[]]
  | c :: rest =>
    if c = '\n' then [] :: splitOnNl rest
    else
      match splitOnNl rest with
      | [] => [[c]]
      | g :: gs => (c :: g) :: gs

/-- Does the list contain two consecutive newlines? -/
def hasNN : List Char → Bool
  | [] => false
  | [_] => false
  | c1 :: c2 :: rest => (c1 = '\n' && c2 = '\n') || hasNN (c2 :: rest)

/-- The first character (if any) is not whitespace. -/
def headNonWs : List Char → Bool
  | [] => true
  | c :: _ => !isPyWs c

/-- `line.startswith(pre)` (the needle comes first). -/
def startsWithChars : List Char → List Char → Bool
  | [], _ => true
  | _ :: _, [] => false
  | a :: as2, c :: cs => a == c && startsWithChars as2 cs

def zipPrefixC : List Char := "zip_path: ".data
def pdfPrefixC : List Char := "pdf_filename: ".data
def errPrefixC : List Char := "error: ".data

/-- One line of the per-block scan of `parse_error_file` (lines 48-54): later
matching lines overwrite earlier ones; each value is the line minus its label,
stripped. -/
def fieldStep (f : Option (List Char) × Option (List Char) × Option (List Char))
    (line : List Char) :
    Option (List Char) × Option (List Char) × Option (List Char) :=
  if startsWithChars zipPrefixC line then (some (pyStrip (line.drop 10)), f.2.1, f.2.2)
  else if startsWithChars pdfPrefixC line then (f.1, some (pyStrip (line.drop 14)), f.2.2)
  else if startsWithChars errPrefixC line then (f.1, f.2.1, some (pyStrip (line.drop 7)))
  else f

def parseBlockFields (lines : List (List Char)) :
    Option (List Char) × Option (List Char) × Option (List Char) :=
  lines.foldl fieldStep (none, none, none)

/-- One iteration of the block loop (lines 39-57): skip whitespace-only
blocks; keep a triple only when all three fields were seen and are non-empty
(Python truthiness). -/
def parseBlockStep (acc : List LedgerEntry) (block : List Char) : List LedgerEntry :=
  if (pyStrip block).isEmpty then acc
  else
    match parseBlockFields (splitOnNl (pyStrip block)) with
    | (some z, some p, some e) =>
      if z.isEmpty || p.isEmpty || e.isEmpty then acc
      else acc ++ [⟨⟨z⟩, ⟨p⟩, ⟨e⟩⟩]
    | _ => acc

/-- `parse_error_file` (retry_failed_pdfs.py:16-62). -/
def parse_error_file (content : List Char) : List LedgerEntry :=
  (splitOnNN (pyStrip content)).foldl parseBlockStep []

/-- `write_to_file` (filling_db.py:98-107): the characters one call appends to
the ledger file (each value sanitized first; the last line is followed by the
blank separator line). -/
def write_to_file (error zip_path pdf_filename : String) : List Char :=
  zipPrefixC ++ (cleanS zip_path).data ++ ['\n'] ++
  (pdfPrefixC ++ (cleanS pdf_filename).data ++ ['\n'] ++
  (errPrefixC ++ (cleanS error).data ++ ['\n', '\n']))

/-- Serializing a whole ledger = concatenating the per-entry appends. -/
def serialize_ledger (es : List LedgerEntry) : List Char :=
  (es.map (fun e => write_to_file e.error e.zip_path e.pdf_filename)).flatten

/-- Lines joined by single newlines (`joinNl [a,b,c] = a\nb\nc`). -/
def joinNl : List (List Char) → List Char
  | [] => []
  | [l] => l
  | l :: ls => l ++ '\n' :: joinNl ls

/-- Blocks joined by blank lines (`chainOf [a,b] = a\n\nb`). -/
def chainOf : List (List Char) → List Char
  | [] => []
  | [b] => b
  | b :: bs => b ++ '\n' :: '\n' :: chainOf bs

/-- The three-line block body `write_to_file` produces for an entry. -/
def bodyOf (e : LedgerEntry) : List Char :=
  joinNl [zipPrefixC ++ (cleanS e.zip_path).data,
          pdfPrefixC ++ (cleanS e.pdf_filename).data,
          errPrefixC ++ (cleanS e.error).data]

/-- A well-formed ledger value: non-empty, newline-free, and with no leading
or trailing whitespace (so Python's `.strip()` is the identity on it). -/
def wfValue (s : String) : Prop :=
  s.data ≠ [] ∧ (∀ c ∈ s.data, c ≠ '\n') ∧
  headNonWs s.data = true ∧ headNonWs s.data.reverse = true

def wfEntry (e : LedgerEntry) : Prop :=
  wfValue e.zip_path ∧ wfValue e.pdf_filename ∧ wfValue e.error

/-- A well-formed ledger line (for malformed-block reasoning). -/
def wfLine (l : List Char) : Prop :=
  l ≠ [] ∧ (∀ c ∈ l, c ≠ '\n') ∧ headNonWs l = true ∧ headNonWs l.reverse = true

theorem startsWithChars_self_append : ∀ (P X : List Char),
    startsWithChars P (P ++ X) = true := by
  intro P X
  induction P with
  | nil => rfl
  | cons a as2 ih =>
    show (a == a && startsWithChars as2 (as2 ++ X)) = true
    rw [ih]
    simp

theorem hasNN_no_nl : ∀ {l : List Char}, (∀ c ∈ l, c ≠ '\n') → hasNN l = false := by
  intro l
  induction l with
  | nil => intro _; rfl
  | cons c1 rest ih =>
    intro h
    cases rest with
    | nil => rfl
    | cons c2 rest2 =>
      show ((c1 = '\n' && c2 = '\n') || hasNN (c2 :: rest2)) = false
      rw [ih (fun c hc => h c (List.mem_cons_of_mem _ hc))]
      have h1 := h c1 (List.mem_cons_self _ _)
      simp [h1]

theorem hasNN_append_left : ∀ {l : List Char} (R : List Char),
    (∀ c ∈ l, c ≠ '\n') → hasNN (l ++ R) = hasNN R := by
  intro l
  induction l with
  | nil => intro R _; rfl
  | cons c rest ih =>
    intro R h
    have hc := h c (List.mem_cons_self _ _)
    have hrest : ∀ c2 ∈ rest, c2 ≠ '\n' := fun c2 hc2 => h c2 (List.mem_cons_of_mem _ hc2)
    cases rest with
    | nil =>
      cases R with
      | nil => rfl
      | cons r R2 =>
        show ((c = '\n' && r = '\n') || hasNN (r :: R2)) = hasNN (r :: R2)
        simp [hc]
    | cons c2 rest2 =>
      show ((c = '\n' && c2 = '\n') || hasNN (c2 :: rest2 ++ R)) = hasNN R
      rw [ih R hrest]
      simp [hc]

theorem hasNN_cons_nl {R : List Char} (hhead : ∀ r, R.head? = some r → r ≠ '\n')
    (hR : hasNN R = false) : hasNN ('\n' :: R) = false := by
  cases R with
  | nil => rfl
  | cons r R2 =>
    show (('\n' = '\n' && r = '\n') || hasNN (r :: R2)) = false
    rw [hR]
    have := hhead r rfl
    simp [this]

theorem splitOnNl_no_nl : ∀ {l : List Char}, (∀ c ∈ l, c ≠ '\n') →
    splitOnNl l = [l] := by
  intro l
  induction l with
  | nil => intro _; rfl
  | cons c rest ih =>
    intro h
    have hc := h c (List.mem_cons_self _ _)
    show (if c = '\n' then [] :: splitOnNl rest
      else match splitOnNl rest with
        | [] => [[c]]
        | g :: gs => (c :: g) :: gs) = [c :: rest]
    rw [if_neg hc, ih (fun c2 hc2 => h c2 (List.mem_cons_of_mem _ hc2))]

theorem splitOnNl_append : ∀ {l : List Char} (R : List Char),
    (∀ c ∈ l, c ≠ '\n') → splitOnNl (l ++ '\n' :: R) = l :: splitOnNl R := by
  intro l
  induction l with
  | nil =>
    intro R _
    show (if '\n' = '\n' then [] :: splitOnNl R
      else match splitOnNl R with
        | [] => [['\n']]
        | g :: gs => ('\n' :: g) :: gs) = [] :: splitOnNl R
    rw [if_pos rfl]
  | cons c rest ih =>
    intro R h
    have hc := h c (List.mem_cons_self _ _)
    show (if c = '\n' then [] :: splitOnNl (rest ++ '\n' :: R)
      else match splitOnNl (rest ++ '\n' :: R) with
        | [] => [[c]]
        | g :: gs => (c :: g) :: gs) = (c :: rest) :: splitOnNl R
    rw [if_neg hc, ih R (fun c2 hc2 => h c2 (List.mem_cons_of_mem _ hc2))]

theorem splitOnNN_noNN : ∀ {l : List Char}, hasNN l = false → splitOnNN l = [l] := by
  intro l
  induction l with
  | nil => intro _; rfl
  | cons c1 rest ih =>
    intro h
    cases rest with
    | nil => rfl
    | cons c2 rest2 =>
      have h2 : hasNN (c2 :: rest2) = false := by
        have : ((c1 = '\n' && c2 = '\n') || hasNN (c2 :: rest2)) = false := h
        simp only [Bool.or_eq_false_iff] at this
        exact this.2
      have h1 : ¬(c1 = '\n' ∧ c2 = '\n') := by
        have hb : ((c1 = '\n' && c2 = '\n') || hasNN (c2 :: rest2)) = false := h
        simp only [Bool.or_eq_false_iff, Bool.and_eq_false_iff] at hb
        rcases hb.1 with hh | hh <;> simp only [decide_eq_false_iff_not] at hh
        · exact fun hcon => hh hcon.1
        · exact fun hcon => hh hcon.2
      show (if c1 = '\n' ∧ c2 = '\n' then [] :: splitOnNN rest2
        else match splitOnNN (c2 :: rest2) with
          | [] => [[c1]]
          | g :: gs => (c1 :: g) :: gs) = [c1 :: c2 :: rest2]
      rw [if_neg h1, ih h2]

theorem splitOnNN_append : ∀ {A : List Char} (R : List Char),
    hasNN A = false → A.getLast? ≠ some '\n' →
    splitOnNN (A ++ '\n' :: '\n' :: R) = A :: splitOnNN R := by
  intro A
  induction A with
  | nil =>
    intro R _ _
    show (if ('\n' : Char) = '\n' ∧ ('\n' : Char) = '\n' then [] :: splitOnNN R
      else match splitOnNN ('\n' :: R) with
        | [] => [['\n']]
        | g :: gs => ('\n' :: g) :: gs) = [] :: splitOnNN R
    rw [if_pos ⟨rfl, rfl⟩]
  | cons c A2 ih =>
    intro R hnn hlast
    cases A2 with
    | nil =>
      have hc : c ≠ '\n' := by
        intro hcon
        exact hlast (by rw [hcon]; rfl)
      show (if c = '\n' ∧ ('\n' : Char) = '\n' then [] :: splitOnNN ('\n' :: R)
        else match splitOnNN ('\n' :: '\n' :: R) with
          | [] => [[c]]
          | g :: gs => (c :: g) :: gs) = [c] :: splitOnNN R
      rw [if_neg (fun hcon => hc hcon.1)]
      have hred : splitOnNN ('\n' :: '\n' :: R) = [] :: splitOnNN R := by
        show (if ('\n' : Char) = '\n' ∧ ('\n' : Char) = '\n' then [] :: splitOnNN R
          else match splitOnNN ('\n' :: R) with
            | [] => [['\n']]
            | g :: gs => ('\n' :: g) :: gs) = [] :: splitOnNN R
        rw [if_pos ⟨rfl, rfl⟩]
      rw [hred]
    | cons c2 A3 =>
      have hnn2 : hasNN (c2 :: A3) = false := by
        have hb : ((c = '\n' && c2 = '\n') || hasNN (c2 :: A3)) = false := hnn
        simp only [Bool.or_eq_false_iff] at hb
        exact hb.2
      have hsep : ¬(c = '\n' ∧ c2 = '\n') := by
        have hb : ((c = '\n' && c2 = '\n') || hasNN (c2 :: A3)) = false := hnn
        simp only [Bool.or_eq_false_iff, Bool.and_eq_false_iff] at hb
        rcases hb.1 with hh | hh <;> simp only [decide_eq_false_iff_not] at hh
        · exact fun hcon => hh hcon.1
        · exact fun hcon => hh hcon.2
      have hlast2 : (c2 :: A3).getLast? ≠ some '\n' := by
        rw [← List.getLast?_cons_cons]
        exact hlast
      show (if c = '\n' ∧ c2 = '\n' then [] :: splitOnNN (A3 ++ '\n' :: '\n' :: R)
        else match splitOnNN ((c2 :: A3) ++ '\n' :: '\n' :: R) with
          | [] => [[c]]
          | g :: gs => (c :: g) :: gs) = (c :: c2 :: A3) :: splitOnNN R
      rw [if_neg hsep, ih R hnn2 hlast2]

theorem dropWhile_of_headNonWs {l : List Char} (h : headNonWs l = true) :
    l.dropWhile isPyWs = l := by
  cases l with
  | nil => rfl
  | cons c rest =>
    have hc : isPyWs c = false := by
      have : (!isPyWs c) = true := h
      simp at this
      exact this
    rw [List.dropWhile_cons_of_neg (by simp [hc])]

theorem stripRight_fixed {l : List Char} (h : headNonWs l.reverse = true) :
    stripRight l = l := by
  unfold stripRight
  rw [dropWhile_of_headNonWs h, List.reverse_reverse]

theorem pyStrip_fixed {l : List Char} (h1 : headNonWs l = true)
    (h2 : headNonWs l.reverse = true) : pyStrip l = l := by
  unfold pyStrip
  rw [dropWhile_of_headNonWs h1, stripRight_fixed h2]

theorem stripRight_append_nonempty {B : List Char} (A : List Char)
    (h : stripRight B ≠ []) : stripRight (A ++ B) = A ++ stripRight B := by
  unfold stripRight at h ⊢
  rw [List.reverse_append, List.dropWhile_append]
  have hne : (B.reverse.dropWhile isPyWs).isEmpty = false := by
    cases hd : B.reverse.dropWhile isPyWs with
    | nil => exact absurd (by rw [hd]; rfl) h
    | cons x xs => rfl
  rw [if_neg (by simp [hne])]
  rw [List.reverse_append, List.reverse_reverse]

theorem stripRight_append_nn {A : List Char} (h : headNonWs A.reverse = true) :
    stripRight (A ++ ['\n', '\n']) = A := by
  unfold stripRight
  rw [List.reverse_append]
  show ((['\n', '\n'].reverse ++ A.reverse).dropWhile isPyWs).reverse = A
  rw [List.dropWhile_append]
  have hd : (['\n', '\n'].reverse.dropWhile isPyWs) = [] := by decide
  rw [hd]
  rw [if_pos (by rfl)]
  rw [dropWhile_of_headNonWs h, List.reverse_reverse]

theorem headNonWs_append_left {l : List Char} (r : List Char) (h : l ≠ []) :
    headNonWs (l ++ r) = headNonWs l := by
  cases l with
  | nil => exact absurd rfl h
  | cons c rest => rfl

theorem joinNl_ne_nil : ∀ {ls : List (List Char)}, ls ≠ [] →
    (∀ l ∈ ls, wfLine l) → joinNl ls ≠ [] := by
  intro ls hne hwf
  cases ls with
  | nil => exact absurd rfl hne
  | cons l ls2 =>
    have hl : l ≠ [] := (hwf l (List.mem_cons_self _ _)).1
    cases ls2 with
    | nil => exact hl
    | cons l2 ls3 =>
      show l ++ '\n' :: joinNl (l2 :: ls3) ≠ []
      cases l with
      | nil => exact absurd rfl hl
      | cons c rest => simp

theorem joinNl_headNonWs : ∀ {ls : List (List Char)}, ls ≠ [] →
    (∀ l ∈ ls, wfLine l) → headNonWs (joinNl ls) = true := by
  intro ls hne hwf
  cases ls with
  | nil => exact absurd rfl hne
  | cons l ls2 =>
    obtain ⟨hl, _, hh, _⟩ := hwf l (List.mem_cons_self _ _)
    cases ls2 with
    | nil => exact hh
    | cons l2 ls3 =>
      show headNonWs (l ++ '\n' :: joinNl (l2 :: ls3)) = true
      rw [headNonWs_append_left _ hl]
      exact hh

theorem joinNl_head_ne_nl : ∀ {ls : List (List Char)}, (∀ l ∈ ls, wfLine l) →
    ∀ r, (joinNl ls).head? = some r → r ≠ '\n' := by
  intro ls hwf r hr
  cases ls with
  | nil => exact absurd hr (by simp [joinNl])
  | cons l ls2 =>
    obtain ⟨hl, hnl, _, _⟩ := hwf l (List.mem_cons_self _ _)
    have hhead : (joinNl (l :: ls2)).head? = l.head? := by
      cases ls2 with
      | nil => rfl
      | cons l2 ls3 =>
        show (l ++ '\n' :: joinNl (l2 :: ls3)).head? = l.head?
        cases l with
        | nil => exact absurd rfl hl
        | cons c rest => rfl
    rw [hhead] at hr
    cases l with
    | nil => exact absurd rfl hl
    | cons c rest =>
      have : r = c := by injection hr with h2; exact h2.symm
      subst this
      exact hnl r (List.mem_cons_self _ _)

theorem joinNl_noNN : ∀ {ls : List (List Char)}, (∀ l ∈ ls, wfLine l) →
    hasNN (joinNl ls) = false := by
  intro ls
  induction ls with
  | nil => intro _; rfl
  | cons l ls2 ih =>
    intro hwf
    obtain ⟨hl, hnl, _, _⟩ := hwf l (List.mem_cons_self _ _)
    have hwf2 : ∀ l2 ∈ ls2, wfLine l2 := fun l2 h2 => hwf l2 (List.mem_cons_of_mem _ h2)
    cases ls2 with
    | nil => exact hasNN_no_nl hnl
    | cons l2 ls3 =>
      show hasNN (l ++ '\n' :: joinNl (l2 :: ls3)) = false
      rw [hasNN_append_left _ hnl]
      apply hasNN_cons_nl
      · exact joinNl_head_ne_nl hwf2
      · exact ih hwf2

theorem joinNl_split : ∀ {ls : List (List Char)}, ls ≠ [] →
    (∀ l ∈ ls, wfLine l) → splitOnNl (joinNl ls) = ls := by
  intro ls
  induction ls with
  | nil => intro h _; exact absurd rfl h
  | cons l ls2 ih =>
    intro _ hwf
    obtain ⟨hl, hnl, _, _⟩ := hwf l (List.mem_cons_self _ _)
    have hwf2 : ∀ l2 ∈ ls2, wfLine l2 := fun l2 h2 => hwf l2 (List.mem_cons_of_mem _ h2)
    cases ls2 with
    | nil => exact splitOnNl_no_nl hnl
    | cons l2 ls3 =>
      show splitOnNl (l ++ '\n' :: joinNl (l2 :: ls3)) = l :: l2 :: ls3
      rw [splitOnNl_append _ hnl, ih (by simp) hwf2]

theorem joinNl_rev_headNonWs : ∀ {ls : List (List Char)}, ls ≠ [] →
    (∀ l ∈ ls, wfLine l) → headNonWs (joinNl ls).reverse = true := by
  intro ls
  induction ls with
  | nil => intro h _; exact absurd rfl h
  | cons l ls2 ih =>
    intro _ hwf
    obtain ⟨hl, _, _, hrev⟩ := hwf l (List.mem_cons_self _ _)
    have hwf2 : ∀ l2 ∈ ls2, wfLine l2 := fun l2 h2 => hwf l2 (List.mem_cons_of_mem _ h2)
    cases ls2 with
    | nil => exact hrev
    | cons l2 ls3 =>
      show headNonWs (l ++ '\n' :: joinNl (l2 :: ls3)).reverse = true
      rw [List.reverse_append, List.reverse_cons]
      have hJ : joinNl (l2 :: ls3) ≠ [] := joinNl_ne_nil (by simp) hwf2
      rw [headNonWs_append_left _ (by simp)]
      rw [headNonWs_append_left _ (by simp [hJ])]
      exact ih (by simp) hwf2

theorem joinNl_getLast_ne_nl {ls : List (List Char)} (hne : ls ≠ [])
    (hwf : ∀ l ∈ ls, wfLine l) : (joinNl ls).getLast? ≠ some '\n' := by
  have h := joinNl_rev_headNonWs hne hwf
  rw [List.getLast?_eq_head?_reverse]
  cases hr : (joinNl ls).reverse with
  | nil => simp
  | cons c rest =>
    rw [hr] at h
    have hc : isPyWs c = false := by
      have hb : (!isPyWs c) = true := h
      simp at hb
      exact hb
    intro hcon
    injection hcon with h2
    rw [h2] at hc
    simp [isPyWs] at hc

/-- What block-level reasoning needs of one block's characters. -/
def GoodBlock (b : List Char) : Prop :=
  b ≠ [] ∧ hasNN b = false ∧ headNonWs b = true ∧
  headNonWs b.reverse = true ∧ b.getLast? ≠ some '\n'

theorem chainOf_ne_nil : ∀ {bs : List (List Char)}, bs ≠ [] →
    (∀ b ∈ bs, GoodBlock b) → chainOf bs ≠ [] := by
  intro bs hne hgb
  cases bs with
  | nil => exact absurd rfl hne
  | cons b bs2 =>
    have hb := (hgb b (List.mem_cons_self _ _)).1
    cases bs2 with
    | nil => exact hb
    | cons b2 bs3 =>
      show b ++ '\n' :: '\n' :: chainOf (b2 :: bs3) ≠ []
      cases b with
      | nil => exact absurd rfl hb
      | cons c rest => simp

theorem splitOnNN_chainOf : ∀ {bs : List (List Char)}, bs ≠ [] →
    (∀ b ∈ bs, GoodBlock b) → splitOnNN (chainOf bs) = bs := by
  intro bs
  induction bs with
  | nil => intro h _; exact absurd rfl h
  | cons b bs2 ih =>
    intro _ hgb
    obtain ⟨hb, hnn, _, _, hlast⟩ := hgb b (List.mem_cons_self _ _)
    have hgb2 : ∀ b2 ∈ bs2, GoodBlock b2 := fun b2 h2 => hgb b2 (List.mem_cons_of_mem _ h2)
    cases bs2 with
    | nil => exact splitOnNN_noNN hnn
    | cons b2 bs3 =>
      show splitOnNN (b ++ '\n' :: '\n' :: chainOf (b2 :: bs3)) = b :: b2 :: bs3
      rw [splitOnNN_append _ hnn hlast, ih (by simp) hgb2]

theorem flatten_nn_headNonWs {bs : List (List Char)} (hne : bs ≠ [])
    (hgb : ∀ b ∈ bs, GoodBlock b) :
    headNonWs ((bs.map (fun b => b ++ ['\n', '\n'])).flatten) = true := by
  cases bs with
  | nil => exact absurd rfl hne
  | cons b bs2 =>
    obtain ⟨hb, _, hh, _, _⟩ := hgb b (List.mem_cons_self _ _)
    show headNonWs ((b ++ ['\n', '\n']) ++ ((bs2.map (fun b => b ++ ['\n', '\n'])).flatten)) = true
    rw [headNonWs_append_left _ (by cases b; exact absurd rfl hb; simp),
      headNonWs_append_left _ hb]
    exact hh

theorem pyStrip_flatten_nn : ∀ {bs : List (List Char)}, bs ≠ [] →
    (∀ b ∈ bs, GoodBlock b) →
    pyStrip ((bs.map (fun b => b ++ ['\n', '\n'])).flatten) = chainOf bs := by
  intro bs
  induction bs with
  | nil => intro h _; exact absurd rfl h
  | cons b bs2 ih =>
    intro _ hgb
    obtain ⟨hb, _, hh, hrev, _⟩ := hgb b (List.mem_cons_self _ _)
    have hgb2 : ∀ b2 ∈ bs2, GoodBlock b2 := fun b2 h2 => hgb b2 (List.mem_cons_of_mem _ h2)
    cases bs2 with
    | nil =>
      show pyStrip ((b ++ ['\n', '\n']) ++ [].flatten) = b
      rw [List.flatten_nil, List.append_nil]
      unfold pyStrip
      rw [dropWhile_of_headNonWs (by rw [headNonWs_append_left _ hb]; exact hh)]
      exact stripRight_append_nn hrev
    | cons b2 bs3 =>
      show pyStrip ((b ++ ['\n', '\n']) ++
        (((b2 :: bs3).map (fun b => b ++ ['\n', '\n'])).flatten)) =
        b ++ '\n' :: '\n' :: chainOf (b2 :: bs3)
      have hstrip2 : pyStrip (((b2 :: bs3).map (fun b => b ++ ['\n', '\n'])).flatten) =
          chainOf (b2 :: bs3) := ih (by simp) hgb2
      have hdw2 : (((b2 :: bs3).map (fun b => b ++ ['\n', '\n'])).flatten).dropWhile isPyWs =
          ((b2 :: bs3).map (fun b => b ++ ['\n', '\n'])).flatten :=
        dropWhile_of_headNonWs (flatten_nn_headNonWs (by simp) hgb2)
      have hsr2 : stripRight (((b2 :: bs3).map (fun b => b ++ ['\n', '\n'])).flatten) =
          chainOf (b2 :: bs3) := by
        have : pyStrip (((b2 :: bs3).map (fun b => b ++ ['\n', '\n'])).flatten) =
            stripRight (((b2 :: bs3).map (fun b => b ++ ['\n', '\n'])).flatten) := by
          unfold pyStrip
          rw [hdw2]
        rw [← this, hstrip2]
      unfold pyStrip
      rw [dropWhile_of_headNonWs]
      · rw [stripRight_append_nonempty _
          (by rw [hsr2]; exact chainOf_ne_nil (by simp) hgb2), hsr2]
        rw [List.append_assoc]
        rfl
      · rw [headNonWs_append_left _ (by cases b; exact absurd rfl hb; simp),
          headNonWs_append_left _ hb]
        exact hh

theorem write_to_file_eq_bodyOf (e : LedgerEntry) :
    write_to_file e.error e.zip_path e.pdf_filename = bodyOf e ++ ['\n', '\n'] := by
  have h3 : ∀ a b c : List Char, joinNl [a, b, c] = a ++ '\n' :: (b ++ '\n' :: c) :=
    fun a b c => rfl
  unfold write_to_file bodyOf
  rw [h3]
  simp [List.append_assoc]

theorem serialize_ledger_eq (es : List LedgerEntry) :
    serialize_ledger es = ((es.map bodyOf).map (fun b => b ++ ['\n', '\n'])).flatten := by
  unfold serialize_ledger
  rw [List.map_map]
  apply congrArg List.flatten
  apply List.map_congr_left
  intro e _
  exact write_to_file_eq_bodyOf e

theorem wfLine_prefix_append (P : List Char) (s : String) (hP : P ≠ [])
    (hPnl : ∀ c ∈ P, c ≠ '\n') (hPh : headNonWs P = true) (hs : wfValue s) :
    wfLine (P ++ s.data) := by
  obtain ⟨hne, hnl, _, hrev⟩ := hs
  refine ⟨by simp [hP], ?_, ?_, ?_⟩
  · intro c hc
    rcases List.mem_append.mp hc with h | h
    · exact hPnl c h
    · exact hnl c h
  · rw [headNonWs_append_left _ hP]; exact hPh
  · rw [List.reverse_append, headNonWs_append_left _ (by simp [hne])]
    exact hrev

theorem body_lines_wf {e : LedgerEntry} (hwf : wfEntry e) :
    ∀ l ∈ [zipPrefixC ++ (cleanS e.zip_path).data,
           pdfPrefixC ++ (cleanS e.pdf_filename).data,
           errPrefixC ++ (cleanS e.error).data], wfLine l := by
  obtain ⟨hz, hp, he⟩ := hwf
  intro l hl
  simp only [List.mem_cons, List.not_mem_nil, or_false] at hl
  rcases hl with h | h | h <;> subst h
  · exact wfLine_prefix_append _ _ (by decide) (by decide) (by decide)
      (by rw [cleanS_id]; exact hz)
  · exact wfLine_prefix_append _ _ (by decide) (by decide) (by decide)
      (by rw [cleanS_id]; exact hp)
  · exact wfLine_prefix_append _ _ (by decide) (by decide) (by decide)
      (by rw [cleanS_id]; exact he)

theorem goodBlock_joinNl {ls : List (List Char)} (hne : ls ≠ [])
    (hwf : ∀ l ∈ ls, wfLine l) : GoodBlock (joinNl ls) :=
  ⟨joinNl_ne_nil hne hwf, joinNl_noNN hwf, joinNl_headNonWs hne hwf,
   joinNl_rev_headNonWs hne hwf, joinNl_getLast_ne_nl hne hwf⟩

theorem goodBlock_bodyOf {e : LedgerEntry} (hwf : wfEntry e) :
    GoodBlock (bodyOf e) :=
  goodBlock_joinNl (by simp) (body_lines_wf hwf)

theorem sw_zip_on_pdf (X : List Char) :
    startsWithChars zipPrefixC (pdfPrefixC ++ X) = false := rfl

theorem sw_zip_on_err (X : List Char) :
    startsWithChars zipPrefixC (errPrefixC ++ X) = false := rfl

theorem sw_pdf_on_err (X : List Char) :
    startsWithChars pdfPrefixC (errPrefixC ++ X) = false := rfl

theorem fieldStep_zip (f : Option (List Char) × Option (List Char) × Option (List Char))
    (z : List Char) (hz : pyStrip z = z) :
    fieldStep f (zipPrefixC ++ z) = (some z, f.2.1, f.2.2) := by
  unfold fieldStep
  rw [if_pos (startsWithChars_self_append _ _)]
  have hd : (zipPrefixC ++ z).drop 10 = z := by
    rw [show (10 : Nat) = zipPrefixC.length from rfl]
    exact List.drop_left _ _
  rw [hd, hz]

theorem fieldStep_pdf (f : Option (List Char) × Option (List Char) × Option (List Char))
    (p : List Char) (hp : pyStrip p = p) :
    fieldStep f (pdfPrefixC ++ p) = (f.1, some p, f.2.2) := by
  unfold fieldStep
  rw [if_neg (by simp [sw_zip_on_pdf]), if_pos (startsWithChars_self_append _ _)]
  have hd : (pdfPrefixC ++ p).drop 14 = p := by
    rw [show (14 : Nat) = pdfPrefixC.length from rfl]
    exact List.drop_left _ _
  rw [hd, hp]

theorem fieldStep_err (f : Option (List Char) × Option (List Char) × Option (List Char))
    (er : List Char) (he : pyStrip er = er) :
    fieldStep f (errPrefixC ++ er) = (f.1, f.2.1, some er) := by
  unfold fieldStep
  rw [if_neg (by simp [sw_zip_on_err]), if_neg (by simp [sw_pdf_on_err]),
    if_pos (startsWithChars_self_append _ _)]
  have hd : (errPrefixC ++ er).drop 7 = er := by
    rw [show (7 : Nat) = errPrefixC.length from rfl]
    exact List.drop_left _ _
  rw [hd, he]

theorem parseBlockFields_body (z p er : List Char) (hz : pyStrip z = z)
    (hp : pyStrip p = p) (he : pyStrip er = er) :
    parseBlockFields [zipPrefixC ++ z, pdfPrefixC ++ p, errPrefixC ++ er] =
      (some z, some p, some er) := by
  unfold parseBlockFields
  rw [List.foldl_cons, fieldStep_zip _ _ hz, List.foldl_cons, fieldStep_pdf _ _ hp,
    List.foldl_cons, fieldStep_err _ _ he, List.foldl_nil]

theorem String_mk_data (s : String) : String.mk s.data = s := by
  cases s
  rfl

theorem isEmpty_false_of_ne_nil {l : List Char} (h : l ≠ []) : l.isEmpty = false := by
  cases l with
  | nil => exact absurd rfl h
  | cons c cs => rfl

theorem parseBlockStep_body (acc : List LedgerEntry) (e : LedgerEntry)
    (hwf : wfEntry e) : parseBlockStep acc (bodyOf e) = acc ++ [e] := by
  obtain ⟨hne0, _, hh, hr, _⟩ := goodBlock_bodyOf hwf
  obtain ⟨hz, hp, he⟩ := hwf
  have hstrip : pyStrip (bodyOf e) = bodyOf e := pyStrip_fixed hh hr
  have hsplit : splitOnNl (bodyOf e) =
      [zipPrefixC ++ (cleanS e.zip_path).data,
       pdfPrefixC ++ (cleanS e.pdf_filename).data,
       errPrefixC ++ (cleanS e.error).data] :=
    joinNl_split (by simp) (body_lines_wf ⟨hz, hp, he⟩)
  have hfields : parseBlockFields (splitOnNl (bodyOf e)) =
      (some (cleanS e.zip_path).data, some (cleanS e.pdf_filename).data,
       some (cleanS e.error).data) := by
    rw [hsplit]
    exact parseBlockFields_body _ _ _
      (by rw [cleanS_id]; exact pyStrip_fixed hz.2.2.1 hz.2.2.2)
      (by rw [cleanS_id]; exact pyStrip_fixed hp.2.2.1 hp.2.2.2)
      (by rw [cleanS_id]; exact pyStrip_fixed he.2.2.1 he.2.2.2)
  unfold parseBlockStep
  rw [hstrip, if_neg (by rw [isEmpty_false_of_ne_nil hne0]; exact Bool.false_ne_true),
    hfields]
  show (if (cleanS e.zip_path).data.isEmpty || (cleanS e.pdf_filename).data.isEmpty ||
      (cleanS e.error).data.isEmpty then acc
    else acc ++ [⟨⟨(cleanS e.zip_path).data⟩, ⟨(cleanS e.pdf_filename).data⟩,
      ⟨(cleanS e.error).data⟩⟩]) = acc ++ [e]
  rw [if_neg (by
    rw [isEmpty_false_of_ne_nil (by rw [cleanS_id]; exact hz.1),
      isEmpty_false_of_ne_nil (by rw [cleanS_id]; exact hp.1),
      isEmpty_false_of_ne_nil (by rw [cleanS_id]; exact he.1)]
    simp)]
  rw [cleanS_id, cleanS_id, cleanS_id, String_mk_data, String_mk_data, String_mk_data]

theorem foldl_parseBlockStep_bodies : ∀ (es : List LedgerEntry)
    (acc : List LedgerEntry), (∀ e ∈ es, wfEntry e) →
    (es.map bodyOf).foldl parseBlockStep acc = acc ++ es := by
  intro es
  induction es with
  | nil => intro acc _; simp
  | cons e es2 ih =>
    intro acc hwf
    rw [List.map_cons, List.foldl_cons,
      parseBlockStep_body acc e (hwf e (List.mem_cons_self _ _)),
      ih _ (fun x hx => hwf x (List.mem_cons_of_mem _ hx)), List.append_assoc]
    rfl

theorem fieldStep_fst_of_no_zip (f : Option (List Char) × Option (List Char) × Option (List Char))
    (l : List Char) (h : startsWithChars zipPrefixC l = false) :
    (fieldStep f l).1 = f.1 := by
  unfold fieldStep
  rw [if_neg (by simp [h])]
  split
  · rfl
  · split <;> rfl

theorem fieldStep_snd_of_no_pdf (f : Option (List Char) × Option (List Char) × Option (List Char))
    (l : List Char) (h : startsWithChars pdfPrefixC l = false) :
    (fieldStep f l).2.1 = f.2.1 := by
  unfold fieldStep
  split
  · rfl
  · rw [if_neg (by simp [h])]
    split <;> rfl

theorem fieldStep_thd_of_no_err (f : Option (List Char) × Option (List Char) × Option (List Char))
    (l : List Char) (h : startsWithChars errPrefixC l = false) :
    (fieldStep f l).2.2 = f.2.2 := by
  unfold fieldStep
  split
  · rfl
  · split
    · rfl
    · rw [if_neg (by simp [h])]

theorem foldl_fieldStep_fst : ∀ (ls : List (List Char))
    (f0 : Option (List Char) × Option (List Char) × Option (List Char)),
    (∀ l ∈ ls, startsWithChars zipPrefixC l = false) →
    (ls.foldl fieldStep f0).1 = f0.1 := by
  intro ls
  induction ls with
  | nil => intro f0 _; rfl
  | cons l ls2 ih =>
    intro f0 h
    rw [List.foldl_cons, ih _ (fun x hx => h x (List.mem_cons_of_mem _ hx))]
    exact fieldStep_fst_of_no_zip f0 l (h l (List.mem_cons_self _ _))

theorem foldl_fieldStep_snd : ∀ (ls : List (List Char))
    (f0 : Option (List Char) × Option (List Char) × Option (List Char)),
    (∀ l ∈ ls, startsWithChars pdfPrefixC l = false) →
    (ls.foldl fieldStep f0).2.1 = f0.2.1 := by
  intro ls
  induction ls with
  | nil => intro f0 _; rfl
  | cons l ls2 ih =>
    intro f0 h
    rw [List.foldl_cons, ih _ (fun x hx => h x (List.mem_cons_of_mem _ hx))]
    exact fieldStep_snd_of_no_pdf f0 l (h l (List.mem_cons_self _ _))

theorem foldl_fieldStep_thd : ∀ (ls : List (List Char))
    (f0 : Option (List Char) × Option (List Char) × Option (List Char)),
    (∀ l ∈ ls, startsWithChars errPrefixC l = false) →
    (ls.foldl fieldStep f0).2.2 = f0.2.2 := by
  intro ls
  induction ls with
  | nil => intro f0 _; rfl
  | cons l ls2 ih =>
    intro f0 h
    rw [List.foldl_cons, ih _ (fun x hx => h x (List.mem_cons_of_mem _ hx))]
    exact fieldStep_thd_of_no_err f0 l (h l (List.mem_cons_self _ _))

theorem parseBlockStep_bad (acc : List LedgerEntry) (bls : List (List Char))
    (hne : bls ≠ []) (hwf : ∀ l ∈ bls, wfLine l)
    (hmiss : (∀ l ∈ bls, startsWithChars zipPrefixC l = false) ∨
             (∀ l ∈ bls, startsWithChars pdfPrefixC l = false) ∨
             (∀ l ∈ bls, startsWithChars errPrefixC l = false)) :
    parseBlockStep acc (joinNl bls) = acc := by
  obtain ⟨hb, _, hh, hr, _⟩ := goodBlock_joinNl hne hwf
  have hstrip : pyStrip (joinNl bls) = joinNl bls := pyStrip_fixed hh hr
  have hsplit : splitOnNl (joinNl bls) = bls := joinNl_split hne hwf
  unfold parseBlockStep
  rw [hstrip, if_neg (by rw [isEmpty_false_of_ne_nil hb]; exact Bool.false_ne_true),
    hsplit]
  rcases hF : parseBlockFields bls with ⟨f1, f2, f3⟩
  rcases hmiss with hm | hm | hm
  · have h1 : f1 = none := by
      have h := foldl_fieldStep_fst bls (none, none, none) hm
      have hF2 : bls.foldl fieldStep (none, none, none) = (f1, f2, f3) := hF
      rw [hF2] at h
      exact h
    subst h1
    cases f2 <;> cases f3 <;> rfl
  · have h2 : f2 = none := by
      have h := foldl_fieldStep_snd bls (none, none, none) hm
      have hF2 : bls.foldl fieldStep (none, none, none) = (f1, f2, f3) := hF
      rw [hF2] at h
      exact h
    subst h2
    cases f1 <;> cases f3 <;> rfl
  · have h3 : f3 = none := by
      have h := foldl_fieldStep_thd bls (none, none, none) hm
      have hF2 : bls.foldl fieldStep (none, none, none) = (f1, f2, f3) := hF
      rw [hF2] at h
      exact h
    subst h3
    cases f1 <;> cases f2 <;> rfl

/-- C8: Ledger round-trip. (1) Serializing any list of well-formed error
entries with `write_to_file` and parsing the file back with
`parse_error_file` yields exactly the original triples, fields preserved
verbatim. (2) A malformed block — well-formed lines but missing the
`zip_path:`, `pdf_filename:` or `error:` line — is dropped, leaving the
entries serialized before and after it parsed intact. -/
theorem C8_ledger_round_trip :
    (∀ es : List LedgerEntry, (∀ e ∈ es, wfEntry e) →
      parse_error_file (serialize_ledger es) = es) ∧
    (∀ (es1 es2 : List LedgerEntry) (bls : List (List Char)),
      (∀ e ∈ es1, wfEntry e) → (∀ e ∈ es2, wfEntry e) →
      bls ≠ [] → (∀ l ∈ bls, wfLine l) →
      ((∀ l ∈ bls, startsWithChars zipPrefixC l = false) ∨
       (∀ l ∈ bls, startsWithChars pdfPrefixC l = false) ∨
       (∀ l ∈ bls, startsWithChars errPrefixC l = false)) →
      parse_error_file (serialize_ledger es1 ++
        (joinNl bls ++ ['\n', '\n']) ++ serialize_ledger es2) = es1 ++ es2) := by
  constructor
  · intro es hwf
    cases es with
    | nil => rfl
    | cons e0 es0 =>
      unfold parse_error_file
      rw [serialize_ledger_eq]
      have hbs : ∀ b ∈ (e0 :: es0).map bodyOf, GoodBlock b := by
        intro b hb
        obtain ⟨e, he, rfl⟩ := List.mem_map.mp hb
        exact goodBlock_bodyOf (hwf e he)
      have hbne : (e0 :: es0).map bodyOf ≠ [] := by simp
      rw [pyStrip_flatten_nn hbne hbs, splitOnNN_chainOf hbne hbs,
        foldl_parseBlockStep_bodies (e0 :: es0) [] hwf, List.nil_append]
  · intro es1 es2 bls hwf1 hwf2 hblne hblwf hmiss
    have hcontent : serialize_ledger es1 ++ (joinNl bls ++ ['\n', '\n']) ++
        serialize_ledger es2 =
        ((es1.map bodyOf ++ [joinNl bls] ++ es2.map bodyOf).map
          (fun b => b ++ ['\n', '\n'])).flatten := by
      rw [serialize_ledger_eq, serialize_ledger_eq]
      simp [List.map_append, List.flatten_append, List.append_assoc]
    have hbs : ∀ b ∈ es1.map bodyOf ++ [joinNl bls] ++ es2.map bodyOf,
        GoodBlock b := by
      intro b hb
      rcases List.mem_append.mp hb with hb1 | hb2
      · rcases List.mem_append.mp hb1 with hb3 | hb4
        · obtain ⟨e, he, rfl⟩ := List.mem_map.mp hb3
          exact goodBlock_bodyOf (hwf1 e he)
        · rw [List.mem_singleton.mp hb4]
          exact goodBlock_joinNl hblne hblwf
      · obtain ⟨e, he, rfl⟩ := List.mem_map.mp hb2
        exact goodBlock_bodyOf (hwf2 e he)
    have hne : es1.map bodyOf ++ [joinNl bls] ++ es2.map bodyOf ≠ [] := by simp
    unfold parse_error_file
    rw [hcontent, pyStrip_flatten_nn hne hbs, splitOnNN_chainOf hne hbs,
      List.foldl_append, List.foldl_append,
      foldl_parseBlockStep_bodies es1 [] hwf1, List.nil_append,
      List.foldl_cons, List.foldl_nil,
      parseBlockStep_bad es1 bls hblne hblwf hmiss,
      foldl_parseBlockStep_bodies es2 es1 hwf2]

/-- Concrete instance of the round-trip and malformed-drop properties. -/
theorem C8_witness :
    parse_error_file (serialize_ledger
      [⟨"a.zip", "p.pdf", "boom"⟩]) = [⟨"a.zip", "p.pdf", "boom"⟩] ∧
    parse_error_file (serialize_ledger [⟨"a.zip", "p.pdf", "boom"⟩] ++
      (joinNl [zipPrefixC ++ "b.zip".data] ++ ['\n', '\n']) ++
      serialize_ledger [⟨"c.zip", "q.pdf", "oops"⟩]) =
      [⟨"a.zip", "p.pdf", "boom"⟩, ⟨"c.zip", "q.pdf", "oops"⟩] := by
  constructor
  · exact C8_ledger_round_trip.1 [⟨"a.zip", "p.pdf", "boom"⟩]
      (by unfold wfEntry wfValue; decide)
  · exact C8_ledger_round_trip.2 [⟨"a.zip", "p.pdf", "boom"⟩]
      [⟨"c.zip", "q.pdf", "oops"⟩] [zipPrefixC ++ "b.zip".data]
      (by unfold wfEntry wfValue; decide)
      (by unfold wfEntry wfValue; decide)
      (by simp)
      (by unfold wfLine; decide)
      (Or.inr (Or.inl (by decide)))
